import Mathlib

/-!
# TouchTracker (Famous/inputs): contact histories and long-press classification

A shallow embedding of `src/TouchTracker.js`.

Modelling conventions:

* A touch carries a numeric `identifier` and the coordinates `clientX` / `clientY`, all
  integers; the remaining properties of the platform object are copied by the clone loop of
  `_timestampTouch` and never read, so they are left out.  A numeric identifier never names a
  property inherited from `Object.prototype`, so a table read is `undefined` exactly when the
  tracker stored nothing under that identifier.
* `Date.now()` is an environment reading: the handlers receive `clock : Nat → Int`, where
  `clock k` is the value returned by the `k`-th call, and the tracker state counts the calls.
* `this.touchHistory` is a JavaScript object used as a table.  It is an association list from
  identifiers to array objects, in creation order.  An array object has an identity
  (`HistoryArray.id`) and contents: a snapshot's `history` field holds the identity (it is a
  reference to the very array that `push` later mutates), not a copy of the contents.
* `this.eventOutput.emit(type, data)` appends to the log `eventOutput`; listeners are outside
  the model.
* The three strings `'unknown'`, `'false'`, `'true'` are the constructors of `LongPress`; a
  snapshot handed to `track` from outside may lack the field (or hold a falsy value), which is
  `none`.
* A handler that throws (only `_handleUnpipe` can, on an empty stored array) returns `none`.
-/

namespace FamousInputs

/-- Minimum length of a long press in milliseconds (source line 11). -/
def LONG_PRESS_THRESHHOLD : Int := 1000

/-- Maximum initial drag in X or Y, in pixels, that still qualifies as a long press
(source line 12). -/
def LONG_PRESS_DRAG_THRESHHOLD : Int := 5

/-- The string returned by `_determineLongPress`. -/
inductive LongPress where
  | unknown
  | false
  | true
  deriving DecidableEq, Repr

/-- The fields of a platform touch object that the tracker reads. -/
structure Touch where
  identifier : Int
  clientX : Int
  clientY : Int
  deriving DecidableEq, Repr

/-- The value of `event.origin`, passed through unread. -/
abbrev Origin := Nat

/-- The record built by `_timestampTouch` (and, without `origin`, by `_handleUnpipe`).
`history` is the identity of the array object it refers to, `none` for `undefined`;
`longPress` is `none` when the property is missing or falsy. -/
structure Snapshot where
  touch : Touch
  origin : Option Origin
  timestamp : Int
  count : Nat
  history : Option Nat
  longPress : Option LongPress
  deriving DecidableEq, Repr

/-- An array object stored in `touchHistory`: its identity and its current elements,
oldest first. -/
structure HistoryArray where
  id : Nat
  elems : List Snapshot
  deriving DecidableEq, Repr

/-- The test `Math.abs(touch.clientX - first.touch.clientX) > LONG_PRESS_DRAG_THRESHHOLD ||
Math.abs(touch.clientY - first.touch.clientY) > LONG_PRESS_DRAG_THRESHHOLD` of source
lines 45-46 and 50-51. -/
def movedTooFar (touch : Touch) (first : Snapshot) : Bool :=
  decide (|touch.clientX - first.touch.clientX| > LONG_PRESS_DRAG_THRESHHOLD) ||
  decide (|touch.clientY - first.touch.clientY| > LONG_PRESS_DRAG_THRESHHOLD)

/-- The classification of source lines 44-56, reached when the latest entry of the history
is undecided: the current touch and time are compared with the first entry. -/
def classifyAgainstFirst (touch : Touch) (first : Snapshot) (now : Int) : LongPress :=
  if now - first.timestamp < LONG_PRESS_THRESHHOLD then
    if movedTooFar touch first then LongPress.false else LongPress.unknown
  else
    if movedTooFar touch first then LongPress.false else LongPress.true

/-- The function `_determineLongPress(touch, history, now, isTouchEnd)` of source lines 40-63.
`history` is `none` for `undefined`, otherwise the contents of the array. -/
def _determineLongPress (touch : Touch) (history : Option (List Snapshot)) (now : Int)
    (isTouchEnd : Bool) : LongPress :=
  let longPress : LongPress :=
    match history with
    | some (first :: rest) =>
      match ((first :: rest).getLast (List.cons_ne_nil first rest)).longPress with
      | none | some LongPress.unknown => classifyAgainstFirst touch first now
      | some retained => retained
    | _ => LongPress.unknown
  if isTouchEnd && decide (longPress = LongPress.unknown) then LongPress.false else longPress

/-- The function `_timestampTouch(touch, origin, history, count, isTouchEnd)` of source
lines 15-27; `now` is the value its call of `Date.now()` returns.  The clone of the touch is
the touch as a value; `history` is stored by reference. -/
def _timestampTouch (now : Int) (touch : Touch) (origin : Origin) (history : Option HistoryArray)
    (count : Nat) (isTouchEnd : Bool) : Snapshot :=
  { touch := touch
    origin := some origin
    timestamp := now
    count := count
    history := history.map HistoryArray.id
    longPress := some (_determineLongPress touch (history.map HistoryArray.elems) now isTouchEnd) }

/-- The object `this.touchHistory`: own properties in creation order. -/
abbrev Table := List (Int × HistoryArray)

/-- The property read `table[k]`: `none` is `undefined`. -/
def lookupHistory (k : Int) : Table → Option HistoryArray
  | [] => none
  | (k1, h) :: t => if k1 = k then some h else lookupHistory k t

/-- The property write `table[k] = h`: an existing property keeps its place, a new one is
created last. -/
def setHistory (k : Int) (h : HistoryArray) : Table → Table
  | [] => [(k, h)]
  | (k1, h1) :: t => if k1 = k then (k1, h) :: t else (k1, h1) :: setHistory k h t

/-- The statement `delete table[k]`. -/
def deleteHistory (k : Int) : Table → Table
  | [] => []
  | (k1, h) :: t => if k1 = k then deleteHistory k t else (k1, h) :: deleteHistory k t

/-- Whether the property key of an identifier is an array index (a canonical numeric string
below `2^32 - 1`). -/
def isArrayIndex (k : Int) : Bool :=
  decide (0 ≤ k) && decide (k < 4294967295)

/-- The keys visited by `for (var i in table)`: array indices in ascending order, then the
other keys in creation order. -/
def forInKeys (t : Table) : List Int :=
  ((t.map Prod.fst).filter isArrayIndex).insertionSort (fun a b => a ≤ b) ++
    (t.map Prod.fst).filter (fun k => !isArrayIndex k)

/-- The names of the events emitted on `eventOutput`. -/
inductive TrackEvent where
  | trackstart
  | trackmove
  | trackend
  deriving DecidableEq, Repr

/-- One call `this.eventOutput.emit(type, data)`. -/
structure Emission where
  type : TrackEvent
  data : Snapshot
  deriving DecidableEq, Repr

/-- The event object delivered to `_handleStart`, `_handleMove` and `_handleEnd`. -/
structure TouchEvent where
  changedTouches : List Touch
  touches : List Touch
  origin : Origin
  deriving DecidableEq, Repr

/-- The tracker object together with the two environment counters of the model: the number
of `Date.now()` calls made so far and the identity of the next array to be created. -/
structure State where
  selective : Bool
  touchHistory : Table
  eventOutput : List Emission
  dateNowCalls : Nat
  nextArrayId : Nat
  deriving DecidableEq, Repr

/-- The constructor `TouchTracker(selective)` of source lines 122-135. -/
def TouchTracker (selective : Bool) : State :=
  { selective := selective, touchHistory := [], eventOutput := [], dateNowCalls := 0,
    nextArrayId := 0 }

/-- The method `TouchTracker.prototype.track(data)` of source lines 143-145: the array literal
`[data]` is a new array object. -/
def track (s : State) (data : Snapshot) : State :=
  { s with
    touchHistory := setHistory data.touch.identifier ⟨s.nextArrayId, [data]⟩ s.touchHistory
    nextArrayId := s.nextArrayId + 1 }

/-- The loop body of `_handleStart` (source lines 67-70) for one changed touch. -/
def handleStartTouch (clock : Nat → Int) (event : TouchEvent) (s : State) (touch : Touch) :
    State :=
  let data := _timestampTouch (clock s.dateNowCalls) touch event.origin none
    event.touches.length false
  let s1 : State :=
    { s with dateNowCalls := s.dateNowCalls + 1
             eventOutput := s.eventOutput ++ [⟨TrackEvent.trackstart, data⟩] }
  if !s1.selective && (lookupHistory touch.identifier s1.touchHistory).isNone then
    track s1 data
  else s1

/-- The handler `_handleStart(event)` of source lines 65-72. -/
def _handleStart (clock : Nat → Int) (s : State) (event : TouchEvent) : State :=
  event.changedTouches.foldl (handleStartTouch clock event) s

/-- The loop body of `_handleMove` (source lines 76-82) for one changed touch. -/
def handleMoveTouch (clock : Nat → Int) (event : TouchEvent) (s : State) (touch : Touch) :
    State :=
  match lookupHistory touch.identifier s.touchHistory with
  | none => s
  | some history =>
    let data := _timestampTouch (clock s.dateNowCalls) touch event.origin (some history)
      event.touches.length false
    { s with dateNowCalls := s.dateNowCalls + 1
             touchHistory := setHistory touch.identifier
               { history with elems := history.elems ++ [data] } s.touchHistory
             eventOutput := s.eventOutput ++ [⟨TrackEvent.trackmove, data⟩] }

/-- The handler `_handleMove(event)` of source lines 74-84. -/
def _handleMove (clock : Nat → Int) (s : State) (event : TouchEvent) : State :=
  event.changedTouches.foldl (handleMoveTouch clock event) s

/-- The loop body of `_handleEnd` (source lines 88-94) for one changed touch. -/
def handleEndTouch (clock : Nat → Int) (event : TouchEvent) (s : State) (touch : Touch) :
    State :=
  match lookupHistory touch.identifier s.touchHistory with
  | none => s
  | some history =>
    let data := _timestampTouch (clock s.dateNowCalls) touch event.origin (some history)
      event.touches.length true
    { s with dateNowCalls := s.dateNowCalls + 1
             eventOutput := s.eventOutput ++ [⟨TrackEvent.trackend, data⟩]
             touchHistory := deleteHistory touch.identifier s.touchHistory }

/-- The handler `_handleEnd(event)` of source lines 86-96, bound to both `touchend` and
`touchcancel`. -/
def _handleEnd (clock : Nat → Int) (s : State) (event : TouchEvent) : State :=
  event.changedTouches.foldl (handleEndTouch clock event) s

/-- The record emitted by `_handleUnpipe` (source lines 102-108) for an array whose last
element is `last`. -/
def unpipeData (now : Int) (history : HistoryArray) (last : Snapshot) : Snapshot :=
  { touch := last.touch
    origin := none
    timestamp := now
    count := 0
    history := some history.id
    longPress := some (_determineLongPress last.touch (some history.elems) now true) }

/-- The loop body of `_handleUnpipe` (source lines 101-109) for the key `i`.  A property
deleted before it is visited is skipped; reading `.touch` of the last element of an empty
array throws, which is `none`. -/
def handleUnpipeKey (now : Int) (s : State) (i : Int) : Option State :=
  match lookupHistory i s.touchHistory with
  | none => some s
  | some history =>
    match history.elems.getLast? with
    | none => none
    | some last =>
      some { s with eventOutput := s.eventOutput ++
                      [⟨TrackEvent.trackend, unpipeData now history last⟩]
                    touchHistory := deleteHistory i s.touchHistory }

/-- The loop of `_handleUnpipe` over the keys still to be visited. -/
def unpipeLoop (now : Int) : State → List Int → Option State
  | s, [] => some s
  | s, i :: keys =>
    match handleUnpipeKey now s i with
    | none => none
    | some s1 => unpipeLoop now s1 keys

/-- The handler `_handleUnpipe()` of source lines 98-111. -/
def _handleUnpipe (clock : Nat → Int) (s : State) : Option State :=
  unpipeLoop (clock s.dateNowCalls) { s with dateNowCalls := s.dateNowCalls + 1 }
    (forInKeys s.touchHistory)

/-- The notifications and calls a tracker can receive. -/
inductive Op where
  | touchstart (event : TouchEvent)
  | touchmove (event : TouchEvent)
  | touchend (event : TouchEvent)
  | touchcancel (event : TouchEvent)
  | unpipe
  | track (data : Snapshot)
  deriving DecidableEq, Repr

/-- The dispatch of one notification or call, as wired in source lines 130-134. -/
def step (clock : Nat → Int) (s : State) : Op → Option State
  | Op.touchstart event => some (_handleStart clock s event)
  | Op.touchmove event => some (_handleMove clock s event)
  | Op.touchend event => some (_handleEnd clock s event)
  | Op.touchcancel event => some (_handleEnd clock s event)
  | Op.unpipe => _handleUnpipe clock s
  | Op.track data => some (track s data)

/-- A sequence of notifications and calls, run to completion one after the other. -/
def run (clock : Nat → Int) : State → List Op → Option State
  | s, [] => some s
  | s, op :: ops =>
    match step clock s op with
    | none => none
    | some s1 => run clock s1 ops

/-- The records emitted between a state and a later one. -/
def emittedSince (s s1 : State) : List Emission :=
  s1.eventOutput.drop s.eventOutput.length

/-- The property a long-press value has when it is `'false'` or `'true'`. -/
def Decided (v : Option LongPress) : Prop :=
  v = some LongPress.false ∨ v = some LongPress.true

instance (v : Option LongPress) : Decidable (Decided v) := by
  unfold Decided; infer_instance

/-- The property of an array of snapshots that a decided `longPress` is repeated by every
later element. -/
def Sticky (l : List Snapshot) : Prop :=
  l.Pairwise (fun a b => Decided a.longPress → b.longPress = a.longPress)

/-- The representation invariant of the table: the keys are distinct, and every stored array
is non-empty and sticky. -/
def TableInv (t : Table) : Prop :=
  (t.map Prod.fst).Nodup ∧ ∀ p ∈ t, p.2.elems ≠ [] ∧ Sticky p.2.elems

/-- The snapshot built at source line 68 for a changed touch of a `touchstart` batch. -/
def startData (clock : Nat → Int) (event : TouchEvent) (s : State) (touch : Touch) : Snapshot :=
  _timestampTouch (clock s.dateNowCalls) touch event.origin none event.touches.length false

/-- The call `this.eventOutput.emit(type, data)` in the state `s`: a listener runs in `s`. -/
def emit (s : State) (type : TrackEvent) (data : Snapshot) : State :=
  { s with eventOutput := s.eventOutput ++ [⟨type, data⟩] }

/-- The state in which `_handleEnd` calls `emit` (source line 92) for a tracked touch: the
clock has been read at line 91 and the table is untouched; the entry is deleted afterwards,
at line 93. -/
def endEmitState (s : State) : State :=
  { s with dateNowCalls := s.dateNowCalls + 1 }

/-- The state in which `_handleMove` calls `emit` (source line 81) for a touch tracked by the
array `history`: the clock has been read at line 79 and the new snapshot has been pushed into
the stored array at line 80. -/
def moveEmitState (clock : Nat → Int) (event : TouchEvent) (s : State) (touch : Touch)
    (history : HistoryArray) : State :=
  { s with dateNowCalls := s.dateNowCalls + 1
           touchHistory := setHistory touch.identifier
             { history with elems := history.elems ++
                 [_timestampTouch (clock s.dateNowCalls) touch event.origin (some history)
                   event.touches.length false] } s.touchHistory }

/-- What reading the `history` field of a snapshot yields while the table is `t`: the current
contents of the stored array with that identity. -/
def derefHistory (t : Table) : Option Nat → Option (List Snapshot)
  | none => none
  | some r => (t.find? (fun p => decide (p.2.id = r))).map (fun p => p.2.elems)

/-- The changed touches of a `touchend` batch whose identifier has an entry at the moment the
loop reaches them. -/
def endTracked : Table → List Touch → List Touch
  | _, [] => []
  | t, a :: l =>
    if (lookupHistory a.identifier t).isSome then a :: endTracked (deleteHistory a.identifier t) l
    else endTracked t l

/-- Whether an operation is one of the notifications (everything but a `track` call). -/
def isNotification : Op → Bool
  | Op.track _ => false
  | _ => true

/-- The property of a state that every stored array starts with a snapshot emitted as
`trackstart`, `'unknown'` and without history, and holds only snapshots of its own key. -/
def StartSeeded (s : State) : Prop :=
  ∀ p ∈ s.touchHistory, ∃ (first : Snapshot) (rest : List Snapshot),
    p.2.elems = first :: rest ∧ first.longPress = some LongPress.unknown ∧
    first.history = none ∧ (⟨TrackEvent.trackstart, first⟩ : Emission) ∈ s.eventOutput ∧
    ∀ x ∈ p.2.elems, x.touch.identifier = p.1

/-- The property of a state that every stored array is ordered by time and holds only
readings of the clock made so far. -/
def Timed (clock : Nat → Int) (s : State) : Prop :=
  ∀ p ∈ s.touchHistory, p.2.elems.Pairwise (fun a b => a.timestamp ≤ b.timestamp) ∧
    ∀ x ∈ p.2.elems, ∃ k : Nat, k < s.dateNowCalls ∧ x.timestamp = clock k

/-- The property of a state that the stored arrays are distinct objects, created before the
next array identity. -/
def DistinctArrays (s : State) : Prop :=
  (s.touchHistory.map (fun p => p.2.id)).Nodup ∧ ∀ p ∈ s.touchHistory, p.2.id < s.nextArrayId

/-! ## Concrete scenarios -/

/-- A clock whose successive readings are 0, 1100, 2200, ... milliseconds. -/
def heldClock : Nat → Int := fun k => 1100 * k

/-- A `touchstart` of contact 1 at the position (0, 0). -/
def pressEvent : TouchEvent :=
  { changedTouches := [⟨1, 0, 0⟩], touches := [⟨1, 0, 0⟩], origin := 0 }

/-- A `touchend` of contact 1 at the position (0, 0). -/
def releaseEvent : TouchEvent :=
  { changedTouches := [⟨1, 0, 0⟩], touches := [], origin := 0 }

/-- A non-selective tracker after `pressEvent`, read at time 0. -/
def pressedState : State := _handleStart heldClock (TouchTracker false) pressEvent

/-- The snapshot of a start at time 0 and position (0, 0). -/
def originStart : Snapshot := _timestampTouch 0 ⟨1, 0, 0⟩ 0 none 1 false

/-- The history of a contact that started at (0, 0) and was classified `'false'` by a move
to (10, 0) at t=200. -/
def draggedHistory : List Snapshot :=
  [originStart, { originStart with touch := ⟨1, 10, 0⟩, timestamp := 200,
                                   longPress := some LongPress.false }]

/-- The record emitted when `releaseEvent` reaches `pressedState` at time 1100. -/
def releaseRecord : Emission :=
  ⟨TrackEvent.trackend,
    { touch := ⟨1, 0, 0⟩, origin := some 0, timestamp := 1100, count := 0, history := some 0,
      longPress := some LongPress.true }⟩

/-- The record emitted when `pressedState` is unpiped at time 1100. -/
def unpipeRecord : Emission :=
  ⟨TrackEvent.trackend,
    { touch := ⟨1, 0, 0⟩, origin := none, timestamp := 1100, count := 0, history := some 0,
      longPress := some LongPress.true }⟩

/-- The state reached when `pressedState` is unpiped at time 1100. -/
def unpipedState : State :=
  { pressedState with touchHistory := []
                      eventOutput := pressedState.eventOutput ++ [unpipeRecord]
                      dateNowCalls := 2 }

/-- A `touchmove` of contact 2, which `pressedState` does not track. -/
def strayEvent : TouchEvent :=
  { changedTouches := [⟨2, 30, 40⟩], touches := [⟨1, 0, 0⟩, ⟨2, 30, 40⟩], origin := 0 }

/-- A `touchmove` of contact 1 to the position (1, 1). -/
def nudgeEvent : TouchEvent :=
  { changedTouches := [⟨1, 1, 1⟩], touches := [⟨1, 1, 1⟩], origin := 0 }

/-- A `touchstart` of the two contacts 1 and 2. -/
def twoContactsEvent : TouchEvent :=
  { changedTouches := [⟨1, 0, 0⟩, ⟨2, 10, 10⟩], touches := [⟨1, 0, 0⟩, ⟨2, 10, 10⟩],
    origin := 0 }

/-- A non-selective tracker with the two open contacts 1 and 2. -/
def twoContactsState : State := _handleStart heldClock (TouchTracker false) twoContactsEvent

/-- A `touchmove` of contact 1 to the position (10, 0). -/
def dragEvent : TouchEvent :=
  { changedTouches := [⟨1, 10, 0⟩], touches := [⟨1, 10, 0⟩], origin := 0 }

/-- Contact 1 starts at (0, 0), is dragged to (10, 0), and moves back near the start. -/
def dragOps : List Op :=
  [Op.touchstart pressEvent, Op.touchmove dragEvent, Op.touchmove nudgeEvent]

/-- The record emitted when `pressEvent` reaches a fresh tracker at time 0. -/
def pressRecord : Emission := ⟨TrackEvent.trackstart, originStart⟩

/-- The history of a contact that started at (0, 0) and has moved to (3, 3) at t=500, still
`'unknown'`. -/
def wanderedHistory : List Snapshot :=
  [originStart, { originStart with touch := ⟨1, 3, 3⟩, timestamp := 500 }]

/-- A history with the same first sample and the same latest `longPress` as `wanderedHistory`,
and other samples in between. -/
def detourHistory : List Snapshot :=
  [originStart, { originStart with touch := ⟨1, 4, -2⟩, timestamp := 100 },
    { originStart with touch := ⟨1, -5, 5⟩, timestamp := 300 },
    { originStart with touch := ⟨1, 0, 1⟩, timestamp := 700 }]

/-- A `touchmove` batch of contact 2 (tracked by `twoContactsState`), contact 3 (untracked) and
contact 1 (tracked), in this order. -/
def mixedEvent : TouchEvent :=
  { changedTouches := [⟨2, 11, 11⟩, ⟨3, 50, 50⟩, ⟨1, 1, 0⟩],
    touches := [⟨1, 1, 0⟩, ⟨2, 11, 11⟩, ⟨3, 50, 50⟩], origin := 0 }

/-- Contacts 1 and 2 start, contact 1 moves twice, contact 2 ends. -/
def sessionOps : List Op :=
  [Op.touchstart twoContactsEvent, Op.touchmove nudgeEvent, Op.touchmove dragEvent,
    Op.touchend { changedTouches := [⟨2, 10, 10⟩], touches := [⟨1, 10, 0⟩], origin := 0 }]

/-- The record emitted when `nudgeEvent` reaches `pressedState` at time 1100. -/
def nudgeRecord : Emission :=
  ⟨TrackEvent.trackmove,
    { touch := ⟨1, 1, 1⟩, origin := some 0, timestamp := 1100, count := 1, history := some 0,
      longPress := some LongPress.true }⟩

/-! ## The classification function -/

theorem determineLongPress_undecided (touch : Touch) (first : Snapshot) (rest : List Snapshot)
    (now : Int) (isTouchEnd : Bool)
    (h : ¬ Decided ((first :: rest).getLast (List.cons_ne_nil first rest)).longPress) :
    _determineLongPress touch (some (first :: rest)) now isTouchEnd =
      if isTouchEnd && decide (classifyAgainstFirst touch first now = LongPress.unknown)
      then LongPress.false else classifyAgainstFirst touch first now := by
  cases hlp : ((first :: rest).getLast (List.cons_ne_nil first rest)).longPress with
  | none => simp only [_determineLongPress, hlp]
  | some v =>
    cases v with
    | unknown => simp only [_determineLongPress, hlp]
    | false => exact absurd (Or.inl hlp) h
    | true => exact absurd (Or.inr hlp) h

theorem determineLongPress_decided (touch : Touch) (first : Snapshot) (rest : List Snapshot)
    (now : Int) (isTouchEnd : Bool) (v : LongPress)
    (hv : ((first :: rest).getLast (List.cons_ne_nil first rest)).longPress = some v)
    (h : v ≠ LongPress.unknown) :
    _determineLongPress touch (some (first :: rest)) now isTouchEnd = v := by
  cases v with
  | unknown => exact absurd rfl h
  | false => simp [_determineLongPress, hv]
  | true => simp [_determineLongPress, hv]

theorem movedTooFar_iff (touch : Touch) (first : Snapshot) :
    movedTooFar touch first = true ↔
      (5 < |touch.clientX - first.touch.clientX| ∨ 5 < |touch.clientY - first.touch.clientY|) := by
  simp [movedTooFar, LONG_PRESS_DRAG_THRESHHOLD]

theorem classifyAgainstFirst_true_iff (touch : Touch) (first : Snapshot) (now : Int) :
    classifyAgainstFirst touch first now = LongPress.true ↔
      (1000 ≤ now - first.timestamp ∧ |touch.clientX - first.touch.clientX| ≤ 5 ∧
        |touch.clientY - first.touch.clientY| ≤ 5) := by
  unfold classifyAgainstFirst
  cases hm : movedTooFar touch first
  · have hm2 : ¬ (5 < |touch.clientX - first.touch.clientX| ∨
        5 < |touch.clientY - first.touch.clientY|) := by
      rw [← movedTooFar_iff]; simp [hm]
    rw [not_or, not_lt, not_lt] at hm2
    by_cases ht : now - first.timestamp < LONG_PRESS_THRESHHOLD
    · have ht2 : ¬ (1000 ≤ now - first.timestamp) := by
        unfold LONG_PRESS_THRESHHOLD at ht; omega
      simp [ht, ht2]
    · have ht2 : 1000 ≤ now - first.timestamp := by
        unfold LONG_PRESS_THRESHHOLD at ht; omega
      simp [ht, ht2, hm2]
  · have hm2 : 5 < |touch.clientX - first.touch.clientX| ∨
        5 < |touch.clientY - first.touch.clientY| := (movedTooFar_iff touch first).mp hm
    have hm3 : ¬ (|touch.clientX - first.touch.clientX| ≤ 5 ∧
        |touch.clientY - first.touch.clientY| ≤ 5) := by
      intro h; rcases hm2 with h2 | h2 <;> omega
    by_cases ht : now - first.timestamp < LONG_PRESS_THRESHHOLD
    · simp only [ht, if_true]
      constructor
      · intro h; cases h
      · intro h; exact absurd h.2 hm3
    · simp only [ht, if_false]
      constructor
      · intro h; cases h
      · intro h; exact absurd h.2 hm3

theorem classifyAgainstFirst_moved (touch : Touch) (first : Snapshot) (now : Int)
    (hm : movedTooFar touch first = true) :
    classifyAgainstFirst touch first now = LongPress.false := by
  unfold classifyAgainstFirst
  simp [hm]

theorem determineLongPress_end_undecided (touch : Touch) (first : Snapshot)
    (rest : List Snapshot) (now : Int)
    (h : ¬ Decided ((first :: rest).getLast (List.cons_ne_nil first rest)).longPress) :
    _determineLongPress touch (some (first :: rest)) now true =
      if 1000 ≤ now - first.timestamp ∧ |touch.clientX - first.touch.clientX| ≤ 5 ∧
        |touch.clientY - first.touch.clientY| ≤ 5 then LongPress.true else LongPress.false := by
  rw [determineLongPress_undecided touch first rest now true h]
  by_cases hc : 1000 ≤ now - first.timestamp ∧ |touch.clientX - first.touch.clientX| ≤ 5 ∧
      |touch.clientY - first.touch.clientY| ≤ 5
  · rw [if_pos hc, (classifyAgainstFirst_true_iff touch first now).mpr hc]
    simp
  · rw [if_neg hc]
    have hne : classifyAgainstFirst touch first now ≠ LongPress.true :=
      fun h => hc ((classifyAgainstFirst_true_iff touch first now).mp h)
    cases hcl : classifyAgainstFirst touch first now with
    | unknown => simp
    | false => simp
    | true => exact absurd hcl hne

theorem determineLongPress_end_decided (touch : Touch) (history : Option (List Snapshot))
    (now : Int) : _determineLongPress touch history now true ≠ LongPress.unknown := by
  unfold _determineLongPress
  simp only [Bool.true_and]
  split
  · simp
  · next h => simpa using h

theorem not_decided_unknown : ¬ Decided (some LongPress.unknown) := by
  simp [Decided]

/-! ## The history table -/

theorem lookupHistory_deleteHistory (k j : Int) (t : Table) :
    lookupHistory k (deleteHistory j t) = if j = k then none else lookupHistory k t := by
  induction t with
  | nil => simp [deleteHistory, lookupHistory]
  | cons p t ih =>
    obtain ⟨k1, h1⟩ := p
    by_cases hj : k1 = j
    · subst hj
      by_cases hk : k1 = k
      · simp [deleteHistory, hk] at ih ⊢
        exact ih
      · simp [deleteHistory, lookupHistory, hk] at ih ⊢
        exact ih
    · by_cases hk : k1 = k
      · subst hk
        have hj2 : ¬ j = k1 := fun h => hj h.symm
        simp [deleteHistory, lookupHistory, hj, hj2]
      · simp [deleteHistory, lookupHistory, hj, hk]
        exact ih

theorem lookupHistory_setHistory (k j : Int) (h : HistoryArray) (t : Table) :
    lookupHistory k (setHistory j h t) = if j = k then some h else lookupHistory k t := by
  induction t with
  | nil => simp [setHistory, lookupHistory]
  | cons p t ih =>
    obtain ⟨k1, h1⟩ := p
    by_cases hj : k1 = j
    · subst hj
      by_cases hk : k1 = k <;> simp [setHistory, lookupHistory, hk]
    · by_cases hk : k1 = k
      · subst hk
        have hj2 : ¬ j = k1 := fun h => hj h.symm
        simp [setHistory, lookupHistory, hj, hj2]
      · simp [setHistory, lookupHistory, hj, hk, ih]

theorem lookupHistory_mem (k : Int) (h : HistoryArray) (t : Table)
    (hl : lookupHistory k t = some h) : (k, h) ∈ t := by
  induction t with
  | nil => simp [lookupHistory] at hl
  | cons p t ih =>
    obtain ⟨k1, h1⟩ := p
    by_cases hk : k1 = k
    · simp [lookupHistory, hk] at hl
      simp [hk, hl]
    · simp [lookupHistory, hk] at hl
      exact List.mem_cons_of_mem _ (ih hl)

theorem mem_setHistory (k : Int) (h : HistoryArray) (t : Table) (p : Int × HistoryArray)
    (hp : p ∈ setHistory k h t) : p ∈ t ∨ p = (k, h) := by
  induction t with
  | nil => simp [setHistory] at hp; exact Or.inr hp
  | cons q t ih =>
    obtain ⟨k1, h1⟩ := q
    by_cases hk : k1 = k
    · simp [setHistory, hk] at hp
      rcases hp with hp | hp
      · exact Or.inr hp
      · exact Or.inl (List.mem_cons_of_mem _ hp)
    · simp [setHistory, hk] at hp
      rcases hp with hp | hp
      · exact Or.inl (by simp [hp])
      · rcases ih hp with h2 | h2
        · exact Or.inl (List.mem_cons_of_mem _ h2)
        · exact Or.inr h2

theorem mem_deleteHistory (k : Int) (t : Table) (p : Int × HistoryArray)
    (hp : p ∈ deleteHistory k t) : p ∈ t := by
  induction t with
  | nil => simp [deleteHistory] at hp
  | cons q t ih =>
    obtain ⟨k1, h1⟩ := q
    by_cases hk : k1 = k
    · simp [deleteHistory, hk] at hp
      exact List.mem_cons_of_mem _ (ih hp)
    · simp [deleteHistory, hk] at hp
      rcases hp with hp | hp
      · simp [hp]
      · exact List.mem_cons_of_mem _ (ih hp)

/-! ## What the handlers emit -/

theorem emittedSince_append (s s1 : State) (es : List Emission)
    (h : s1.eventOutput = s.eventOutput ++ es) : emittedSince s s1 = es := by
  simp [emittedSince, h]

theorem handleEndTouch_none (clock : Nat → Int) (event : TouchEvent) (s : State) (touch : Touch)
    (hl : lookupHistory touch.identifier s.touchHistory = none) :
    handleEndTouch clock event s touch = s := by
  simp [handleEndTouch, hl]

theorem handleEndTouch_some (clock : Nat → Int) (event : TouchEvent) (s : State) (touch : Touch)
    (h : HistoryArray) (hl : lookupHistory touch.identifier s.touchHistory = some h) :
    handleEndTouch clock event s touch =
      { s with dateNowCalls := s.dateNowCalls + 1
               eventOutput := s.eventOutput ++ [⟨TrackEvent.trackend,
                 _timestampTouch (clock s.dateNowCalls) touch event.origin (some h)
                   event.touches.length true⟩]
               touchHistory := deleteHistory touch.identifier s.touchHistory } := by
  simp [handleEndTouch, hl]

theorem handleMoveTouch_none (clock : Nat → Int) (event : TouchEvent) (s : State) (touch : Touch)
    (hl : lookupHistory touch.identifier s.touchHistory = none) :
    handleMoveTouch clock event s touch = s := by
  simp [handleMoveTouch, hl]

theorem handleMoveTouch_some (clock : Nat → Int) (event : TouchEvent) (s : State) (touch : Touch)
    (h : HistoryArray) (hl : lookupHistory touch.identifier s.touchHistory = some h) :
    handleMoveTouch clock event s touch =
      { s with dateNowCalls := s.dateNowCalls + 1
               touchHistory := setHistory touch.identifier
                 { h with elems := h.elems ++ [_timestampTouch (clock s.dateNowCalls) touch
                     event.origin (some h) event.touches.length false] } s.touchHistory
               eventOutput := s.eventOutput ++ [⟨TrackEvent.trackmove,
                 _timestampTouch (clock s.dateNowCalls) touch event.origin (some h)
                   event.touches.length false⟩] } := by
  simp [handleMoveTouch, hl]

/-- Every record emitted by the loop of `_handleEnd` is the `trackend` snapshot of a changed
touch, built from the array stored for its identifier when the loop started. -/
theorem handleEnd_loop_emitted (clock : Nat → Int) (event : TouchEvent) (l : List Touch) :
    ∀ s : State, ∃ es : List Emission,
      (l.foldl (handleEndTouch clock event) s).eventOutput = s.eventOutput ++ es ∧
      ∀ e ∈ es, ∃ (touch : Touch) (now : Int) (h : HistoryArray), touch ∈ l ∧
        lookupHistory touch.identifier s.touchHistory = some h ∧
        e = ⟨TrackEvent.trackend,
          _timestampTouch now touch event.origin (some h) event.touches.length true⟩ := by
  induction l with
  | nil => intro s; exact ⟨[], by simp, by simp⟩
  | cons a l ih =>
    intro s
    rw [List.foldl_cons]
    cases hl : lookupHistory a.identifier s.touchHistory with
    | none =>
      rw [handleEndTouch_none clock event s a hl]
      obtain ⟨es, h1, h2⟩ := ih s
      refine ⟨es, h1, ?_⟩
      intro e he
      obtain ⟨touch, now, h, hm, hlk, heq⟩ := h2 e he
      exact ⟨touch, now, h, List.mem_cons_of_mem _ hm, hlk, heq⟩
    | some h0 =>
      rw [handleEndTouch_some clock event s a h0 hl]
      obtain ⟨es, h1, h2⟩ := ih
        { s with dateNowCalls := s.dateNowCalls + 1
                 eventOutput := s.eventOutput ++ [⟨TrackEvent.trackend,
                   _timestampTouch (clock s.dateNowCalls) a event.origin (some h0)
                     event.touches.length true⟩]
                 touchHistory := deleteHistory a.identifier s.touchHistory }
      refine ⟨⟨TrackEvent.trackend, _timestampTouch (clock s.dateNowCalls) a event.origin
        (some h0) event.touches.length true⟩ :: es, ?_, ?_⟩
      · rw [h1]; simp
      · intro e he
        rcases List.mem_cons.mp he with he | he
        · exact ⟨a, clock s.dateNowCalls, h0, List.mem_cons_self _ _, hl, he⟩
        · obtain ⟨touch, now, h, hm, hlk, heq⟩ := h2 e he
          refine ⟨touch, now, h, List.mem_cons_of_mem _ hm, ?_, heq⟩
          simp only [lookupHistory_deleteHistory] at hlk
          split at hlk
          · cases hlk
          · exact hlk

/-- Every record emitted by `_handleEnd`: see `handleEnd_loop_emitted`. -/
theorem handleEnd_emitted (clock : Nat → Int) (s : State) (event : TouchEvent) (e : Emission)
    (he : e ∈ emittedSince s (_handleEnd clock s event)) :
    ∃ (touch : Touch) (now : Int) (h : HistoryArray), touch ∈ event.changedTouches ∧
      lookupHistory touch.identifier s.touchHistory = some h ∧
      e = ⟨TrackEvent.trackend,
        _timestampTouch now touch event.origin (some h) event.touches.length true⟩ := by
  obtain ⟨es, h1, h2⟩ := handleEnd_loop_emitted clock event event.changedTouches s
  rw [emittedSince_append s (_handleEnd clock s event) es h1] at he
  exact h2 e he

/-- Every record emitted by the loop of `_handleUnpipe` is the `trackend` record built from
an array of the table and its last element. -/
theorem unpipeLoop_emitted (now : Int) (keys : List Int) :
    ∀ s s1 : State, unpipeLoop now s keys = some s1 → ∃ es : List Emission,
      s1.eventOutput = s.eventOutput ++ es ∧
      ∀ e ∈ es, ∃ (i : Int) (h : HistoryArray) (last : Snapshot),
        lookupHistory i s.touchHistory = some h ∧ h.elems.getLast? = some last ∧
        e = ⟨TrackEvent.trackend, unpipeData now h last⟩ := by
  induction keys with
  | nil =>
    intro s s1 hrun
    simp [unpipeLoop] at hrun
    subst hrun
    exact ⟨[], by simp, by simp⟩
  | cons i keys ih =>
    intro s s1 hrun
    simp only [unpipeLoop] at hrun
    cases hl : lookupHistory i s.touchHistory with
    | none =>
      simp only [handleUnpipeKey, hl] at hrun
      exact ih s s1 hrun
    | some h0 =>
      cases hlast : h0.elems.getLast? with
      | none => simp [handleUnpipeKey, hl, hlast] at hrun
      | some last0 =>
        simp only [handleUnpipeKey, hl, hlast] at hrun
        obtain ⟨es, h1, h2⟩ := ih _ s1 hrun
        refine ⟨⟨TrackEvent.trackend, unpipeData now h0 last0⟩ :: es, ?_, ?_⟩
        · rw [h1]; simp
        · intro e he
          rcases List.mem_cons.mp he with he | he
          · exact ⟨i, h0, last0, hl, hlast, he⟩
          · obtain ⟨j, h, last, hlk, hla, heq⟩ := h2 e he
            refine ⟨j, h, last, ?_, hla, heq⟩
            simp only [lookupHistory_deleteHistory] at hlk
            split at hlk
            · cases hlk
            · exact hlk

/-- Every record emitted by `_handleUnpipe`: see `unpipeLoop_emitted`. -/
theorem handleUnpipe_emitted (clock : Nat → Int) (s s1 : State)
    (hrun : _handleUnpipe clock s = some s1) (e : Emission) (he : e ∈ emittedSince s s1) :
    ∃ (i : Int) (h : HistoryArray) (last : Snapshot),
      lookupHistory i s.touchHistory = some h ∧ h.elems.getLast? = some last ∧
      e = ⟨TrackEvent.trackend, unpipeData (clock s.dateNowCalls) h last⟩ := by
  obtain ⟨es, h1, h2⟩ := unpipeLoop_emitted (clock s.dateNowCalls) (forInKeys s.touchHistory)
    _ s1 hrun
  rw [emittedSince_append s s1 es h1] at he
  exact h2 e he

theorem getLast_of_getLast? (l : List Snapshot) (hne : l ≠ []) (x : Snapshot)
    (h : l.getLast? = some x) : l.getLast hne = x := by
  rw [List.getLast?_eq_getLast l hne] at h
  exact Option.some.inj h

/-- The classification stored in the record that `_handleEnd` builds from an array whose
latest entry is undecided. -/
theorem timestampTouch_end_undecided (now : Int) (touch : Touch) (origin : Origin)
    (h : HistoryArray) (count : Nat) (first last : Snapshot)
    (hfirst : h.elems.head? = some first) (hlast : h.elems.getLast? = some last)
    (hu : ¬ Decided last.longPress) :
    (_timestampTouch now touch origin (some h) count true).longPress =
      some (if 1000 ≤ now - first.timestamp ∧ |touch.clientX - first.touch.clientX| ≤ 5 ∧
        |touch.clientY - first.touch.clientY| ≤ 5 then LongPress.true else LongPress.false) := by
  cases helems : h.elems with
  | nil => rw [helems] at hfirst; simp at hfirst
  | cons f r =>
    rw [helems] at hfirst hlast
    simp only [List.head?_cons, Option.some.injEq] at hfirst
    subst hfirst
    have hl := getLast_of_getLast? (f :: r) (List.cons_ne_nil f r) last hlast
    simp only [_timestampTouch, Option.map_some', helems]
    rw [determineLongPress_end_undecided touch f r now (by rw [hl]; exact hu)]

/-- The classification stored in the record that `_handleUnpipe` builds from an array whose
latest entry is undecided. -/
theorem unpipeData_undecided (now : Int) (h : HistoryArray) (first last : Snapshot)
    (hfirst : h.elems.head? = some first) (hlast : h.elems.getLast? = some last)
    (hu : ¬ Decided last.longPress) :
    (unpipeData now h last).longPress =
      some (if 1000 ≤ now - first.timestamp ∧ |last.touch.clientX - first.touch.clientX| ≤ 5 ∧
        |last.touch.clientY - first.touch.clientY| ≤ 5 then LongPress.true
        else LongPress.false) := by
  cases helems : h.elems with
  | nil => rw [helems] at hfirst; simp at hfirst
  | cons f r =>
    rw [helems] at hfirst hlast
    simp only [List.head?_cons, Option.some.injEq] at hfirst
    subst hfirst
    have hl := getLast_of_getLast? (f :: r) (List.cons_ne_nil f r) last hlast
    simp only [unpipeData, helems]
    rw [determineLongPress_end_undecided last.touch f r now (by rw [hl]; exact hu)]

/-- Every record emitted by the loop of `_handleMove` is a `trackmove` of a changed touch whose
identifier had an entry when the loop started. -/
theorem handleMove_loop_emitted (clock : Nat → Int) (event : TouchEvent) (l : List Touch) :
    ∀ s : State, ∃ es : List Emission,
      (l.foldl (handleMoveTouch clock event) s).eventOutput = s.eventOutput ++ es ∧
      ∀ e ∈ es, e.type = TrackEvent.trackmove ∧ e.data.touch ∈ l ∧
        (lookupHistory e.data.touch.identifier s.touchHistory).isSome = true := by
  induction l with
  | nil => intro s; exact ⟨[], by simp, by simp⟩
  | cons a l ih =>
    intro s
    rw [List.foldl_cons]
    cases hl : lookupHistory a.identifier s.touchHistory with
    | none =>
      rw [handleMoveTouch_none clock event s a hl]
      obtain ⟨es, h1, h2⟩ := ih s
      refine ⟨es, h1, ?_⟩
      intro e he
      obtain ⟨ht, hm, hlk⟩ := h2 e he
      exact ⟨ht, List.mem_cons_of_mem _ hm, hlk⟩
    | some h0 =>
      rw [handleMoveTouch_some clock event s a h0 hl]
      obtain ⟨es, h1, h2⟩ := ih
        { s with dateNowCalls := s.dateNowCalls + 1
                 touchHistory := setHistory a.identifier
                   { h0 with elems := h0.elems ++ [_timestampTouch (clock s.dateNowCalls) a
                       event.origin (some h0) event.touches.length false] } s.touchHistory
                 eventOutput := s.eventOutput ++ [⟨TrackEvent.trackmove,
                   _timestampTouch (clock s.dateNowCalls) a event.origin (some h0)
                     event.touches.length false⟩] }
      refine ⟨⟨TrackEvent.trackmove, _timestampTouch (clock s.dateNowCalls) a event.origin
        (some h0) event.touches.length false⟩ :: es, ?_, ?_⟩
      · rw [h1]; simp
      · intro e he
        rcases List.mem_cons.mp he with he | he
        · subst he
          exact ⟨rfl, List.mem_cons_self _ _, by simp [_timestampTouch, hl]⟩
        · obtain ⟨ht, hm, hlk⟩ := h2 e he
          refine ⟨ht, List.mem_cons_of_mem _ hm, ?_⟩
          simp only [lookupHistory_setHistory] at hlk
          split at hlk
          · next heq => rw [← heq, hl]; rfl
          · exact hlk

theorem determineLongPress_no_history (touch : Touch) (now : Int) :
    _determineLongPress touch none now false = LongPress.unknown := by
  simp [_determineLongPress]

/-- The records emitted by the loop of `_handleStart`: one `trackstart` for each changed
touch, in order. -/
theorem handleStart_loop_emitted (clock : Nat → Int) (event : TouchEvent) (l : List Touch) :
    ∀ s : State, ∃ es : List Emission,
      (l.foldl (handleStartTouch clock event) s).eventOutput = s.eventOutput ++ es ∧
      es.map (fun e => (e.type, e.data.touch, e.data.count, e.data.history, e.data.longPress))
        = l.map (fun t => (TrackEvent.trackstart, t, event.touches.length, none,
            some LongPress.unknown)) := by
  induction l with
  | nil => intro s; exact ⟨[], by simp, by simp⟩
  | cons a l ih =>
    intro s
    rw [List.foldl_cons]
    obtain ⟨es, h1, h2⟩ := ih (handleStartTouch clock event s a)
    refine ⟨⟨TrackEvent.trackstart, _timestampTouch (clock s.dateNowCalls) a event.origin none
      event.touches.length false⟩ :: es, ?_, ?_⟩
    · rw [h1]
      unfold handleStartTouch
      simp only []
      split <;> simp [track]
    · simp only [List.map_cons, h2]
      simp [_timestampTouch, determineLongPress_no_history]

/-- In selective mode the loop of `_handleStart` never writes to the table. -/
theorem handleStart_loop_selective (clock : Nat → Int) (event : TouchEvent) (l : List Touch) :
    ∀ s : State, s.selective = true →
      (l.foldl (handleStartTouch clock event) s).touchHistory = s.touchHistory ∧
      (l.foldl (handleStartTouch clock event) s).selective = true ∧
      (l.foldl (handleStartTouch clock event) s).nextArrayId = s.nextArrayId := by
  induction l with
  | nil => intro s hs; exact ⟨rfl, hs, rfl⟩
  | cons a l ih =>
    intro s hs
    rw [List.foldl_cons]
    have hstep : handleStartTouch clock event s a =
        { s with dateNowCalls := s.dateNowCalls + 1
                 eventOutput := s.eventOutput ++ [⟨TrackEvent.trackstart,
                   _timestampTouch (clock s.dateNowCalls) a event.origin none
                     event.touches.length false⟩] } := by
      simp [handleStartTouch, hs]
    rw [hstep]
    exact ih _ hs

theorem handleMove_single (clock : Nat → Int) (s : State) (event : TouchEvent) (touch : Touch)
    (h : event.changedTouches = [touch]) :
    _handleMove clock s event = handleMoveTouch clock event s touch := by
  simp [_handleMove, h]

theorem handleEnd_single (clock : Nat → Int) (s : State) (event : TouchEvent) (touch : Touch)
    (h : event.changedTouches = [touch]) :
    _handleEnd clock s event = handleEndTouch clock event s touch := by
  simp [_handleEnd, h]

theorem handleStart_single (clock : Nat → Int) (s : State) (event : TouchEvent) (touch : Touch)
    (h : event.changedTouches = [touch]) :
    _handleStart clock s event = handleStartTouch clock event s touch := by
  simp [_handleStart, h]

/-- A run of single-contact `touchmove` batches for a tracked identifier: the stored array
grows by one element per batch and one `trackmove` is emitted per batch. -/
theorem moves_of_tracked (clock : Nat → Int) (id : Int) (moves : List TouchEvent) :
    ∀ (s : State) (h : HistoryArray), lookupHistory id s.touchHistory = some h →
      (∀ m ∈ moves, ∃ t : Touch, m.changedTouches = [t] ∧ t.identifier = id) →
      ∃ h1 : HistoryArray,
        lookupHistory id (moves.foldl (_handleMove clock) s).touchHistory = some h1 ∧
        h1.elems.length = h.elems.length + moves.length ∧
        (moves.foldl (_handleMove clock) s).eventOutput.map Emission.type =
          s.eventOutput.map Emission.type ++ List.replicate moves.length TrackEvent.trackmove := by
  induction moves with
  | nil => intro s h hl _; exact ⟨h, hl, by simp, by simp⟩
  | cons m ms ih =>
    intro s h hl hall
    obtain ⟨t, hm, hid⟩ := hall m (List.mem_cons_self _ _)
    subst hid
    rw [List.foldl_cons, handleMove_single clock s m t hm, handleMoveTouch_some clock m s t h hl]
    obtain ⟨h1, hl1, hlen, hout⟩ := ih
      { s with dateNowCalls := s.dateNowCalls + 1
               touchHistory := setHistory t.identifier
                 { h with elems := h.elems ++ [_timestampTouch (clock s.dateNowCalls) t
                     m.origin (some h) m.touches.length false] } s.touchHistory
               eventOutput := s.eventOutput ++ [⟨TrackEvent.trackmove,
                 _timestampTouch (clock s.dateNowCalls) t m.origin (some h)
                   m.touches.length false⟩] }
      { h with elems := h.elems ++ [_timestampTouch (clock s.dateNowCalls) t
          m.origin (some h) m.touches.length false] }
      (by simp [lookupHistory_setHistory])
      (fun m1 hm1 => hall m1 (List.mem_cons_of_mem _ hm1))
    refine ⟨h1, hl1, ?_, ?_⟩
    · rw [hlen]; simp; omega
    · rw [hout]; simp [List.replicate_succ]

theorem run_moves (clock : Nat → Int) (moves : List TouchEvent) (rest : List Op) :
    ∀ s : State, run clock s (moves.map Op.touchmove ++ rest) =
      run clock (moves.foldl (_handleMove clock) s) rest := by
  induction moves with
  | nil => intro s; rfl
  | cons m ms ih => intro s; simp [run, step, ih]

theorem forInKeys_perm (t : Table) : (forInKeys t).Perm (t.map Prod.fst) := by
  unfold forInKeys
  exact ((List.perm_insertionSort (fun a b : Int => a ≤ b)
    ((t.map Prod.fst).filter isArrayIndex)).append_right _).trans
    (List.filter_append_perm isArrayIndex (t.map Prod.fst))

theorem lookupHistory_of_mem_keys (k : Int) (t : Table) (hk : k ∈ t.map Prod.fst) :
    ∃ h : HistoryArray, lookupHistory k t = some h := by
  induction t with
  | nil => simp at hk
  | cons p t ih =>
    obtain ⟨k1, h1⟩ := p
    by_cases hk1 : k1 = k
    · exact ⟨h1, by simp [lookupHistory, hk1]⟩
    · have hk2 : k ∈ t.map Prod.fst := by
        simp only [List.map_cons, List.mem_cons] at hk
        rcases hk with hk | hk
        · exact absurd hk.symm hk1
        · exact hk
      obtain ⟨h, hh⟩ := ih hk2
      exact ⟨h, by simp [lookupHistory, hk1, hh]⟩

theorem table_nil_of_lookup_none (t : Table) (h : ∀ k, lookupHistory k t = none) : t = [] := by
  cases t with
  | nil => rfl
  | cons p t =>
    have := h p.1
    simp [lookupHistory] at this

/-- The loop of `_handleUnpipe` over distinct keys that all have a non-empty array: it
completes, removes exactly those keys, and emits one record per key, in order. -/
theorem unpipeLoop_exact (now : Int) (keys : List Int) :
    ∀ s : State, keys.Nodup →
      (∀ i ∈ keys, ∃ (h : HistoryArray) (last : Snapshot),
        lookupHistory i s.touchHistory = some h ∧ h.elems.getLast? = some last) →
      ∃ (s1 : State) (order : List (Int × HistoryArray)) (es : List Emission),
        unpipeLoop now s keys = some s1 ∧
        s1.eventOutput = s.eventOutput ++ es ∧
        (∀ k, lookupHistory k s1.touchHistory =
          if k ∈ keys then none else lookupHistory k s.touchHistory) ∧
        order.map Prod.fst = keys ∧
        (∀ p ∈ order, lookupHistory p.1 s.touchHistory = some p.2) ∧
        List.Forall₂ (fun p e => ∃ last : Snapshot, p.2.elems.getLast? = some last ∧
          e = ⟨TrackEvent.trackend, unpipeData now p.2 last⟩) order es := by
  induction keys with
  | nil =>
    intro s _ _
    exact ⟨s, [], [], rfl, by simp, by simp, rfl, by simp, List.Forall₂.nil⟩
  | cons i keys ih =>
    intro s hnd hall
    obtain ⟨h0, last0, hl0, hlast0⟩ := hall i (List.mem_cons_self _ _)
    have hi : i ∉ keys := (List.nodup_cons.mp hnd).1
    have hstep : handleUnpipeKey now s i =
        some { s with eventOutput := s.eventOutput ++
                        [⟨TrackEvent.trackend, unpipeData now h0 last0⟩]
                      touchHistory := deleteHistory i s.touchHistory } := by
      simp [handleUnpipeKey, hl0, hlast0]
    obtain ⟨s1, order, es, hrun, hout, hlk, hord, hmem, hrel⟩ := ih
      { s with eventOutput := s.eventOutput ++ [⟨TrackEvent.trackend, unpipeData now h0 last0⟩]
               touchHistory := deleteHistory i s.touchHistory }
      (List.nodup_cons.mp hnd).2
      (by
        intro j hj
        obtain ⟨h, last, hl, hlast⟩ := hall j (List.mem_cons_of_mem _ hj)
        refine ⟨h, last, ?_, hlast⟩
        have hij : ¬ i = j := fun heq => hi (heq ▸ hj)
        simp [lookupHistory_deleteHistory, hij, hl])
    refine ⟨s1, (i, h0) :: order, ⟨TrackEvent.trackend, unpipeData now h0 last0⟩ :: es,
      ?_, ?_, ?_, ?_, ?_, ?_⟩
    · simp only [unpipeLoop, hstep]
      exact hrun
    · rw [hout]; simp
    · intro k
      rw [hlk k]
      simp only [lookupHistory_deleteHistory, List.mem_cons]
      by_cases hk : k ∈ keys
      · simp [hk]
      · by_cases hik : i = k
        · simp [hik]
        · have hki : ¬ k = i := fun heq => hik heq.symm
          simp [hk, hik, hki]
    · simp [hord]
    · intro p hp
      rcases List.mem_cons.mp hp with hp | hp
      · subst hp; exact hl0
      · have := hmem p hp
        simp only [lookupHistory_deleteHistory] at this
        split at this
        · cases this
        · exact this
    · exact List.Forall₂.cons ⟨last0, hlast0, rfl⟩ hrel

/-- On a table with distinct keys and non-empty arrays, `_handleUnpipe` completes and leaves
the table empty; it emits one record for each key visited by the loop, in that order. -/
theorem handleUnpipe_complete (clock : Nat → Int) (s : State)
    (hkeys : (s.touchHistory.map Prod.fst).Nodup)
    (hne : ∀ p ∈ s.touchHistory, p.2.elems ≠ []) :
    ∃ (s1 : State) (order : List (Int × HistoryArray)) (es : List Emission),
      _handleUnpipe clock s = some s1 ∧
      s1.touchHistory = [] ∧
      s1.eventOutput = s.eventOutput ++ es ∧
      order.map Prod.fst = forInKeys s.touchHistory ∧
      (∀ p ∈ order, lookupHistory p.1 s.touchHistory = some p.2) ∧
      List.Forall₂ (fun p e => ∃ last : Snapshot, p.2.elems.getLast? = some last ∧
        e = ⟨TrackEvent.trackend, unpipeData (clock s.dateNowCalls) p.2 last⟩) order es := by
  have hperm := forInKeys_perm s.touchHistory
  have hnd : (forInKeys s.touchHistory).Nodup := hperm.nodup_iff.mpr hkeys
  have hall : ∀ i ∈ forInKeys s.touchHistory, ∃ (h : HistoryArray) (last : Snapshot),
      lookupHistory i s.touchHistory = some h ∧ h.elems.getLast? = some last := by
    intro i hi
    obtain ⟨h, hl⟩ := lookupHistory_of_mem_keys i s.touchHistory (hperm.subset hi)
    have hmem := lookupHistory_mem i h s.touchHistory hl
    exact ⟨h, h.elems.getLast (hne _ hmem), hl, List.getLast?_eq_getLast _ _⟩
  obtain ⟨s1, order, es, hrun, hout, hlk, hord, hmem, hrel⟩ :=
    unpipeLoop_exact (clock s.dateNowCalls) (forInKeys s.touchHistory)
      { s with dateNowCalls := s.dateNowCalls + 1 } hnd hall
  refine ⟨s1, order, es, hrun, ?_, hout, hord, hmem, hrel⟩
  apply table_nil_of_lookup_none
  intro k
  rw [hlk k]
  by_cases hk : k ∈ forInKeys s.touchHistory
  · simp [hk]
  · simp only [hk, if_false]
    cases hl : lookupHistory k s.touchHistory with
    | none => rfl
    | some h =>
      exfalso
      apply hk
      apply hperm.symm.subset
      exact List.mem_map.mpr ⟨(k, h), lookupHistory_mem k h s.touchHistory hl, rfl⟩

/-! ## The invariant of the table -/

theorem keys_setHistory (k : Int) (h : HistoryArray) (t : Table) :
    (setHistory k h t).map Prod.fst =
      if k ∈ t.map Prod.fst then t.map Prod.fst else t.map Prod.fst ++ [k] := by
  induction t with
  | nil => simp [setHistory]
  | cons p t ih =>
    obtain ⟨k1, h1⟩ := p
    by_cases hk : k1 = k
    · simp [setHistory, hk]
    · have hk2 : ¬ k = k1 := fun heq => hk heq.symm
      simp only [setHistory, hk, if_false, List.map_cons, ih, List.mem_cons, hk2, false_or]
      split <;> simp

theorem nodup_setHistory (k : Int) (h : HistoryArray) (t : Table)
    (hnd : (t.map Prod.fst).Nodup) : ((setHistory k h t).map Prod.fst).Nodup := by
  rw [keys_setHistory]
  split
  · exact hnd
  · next hk =>
    rw [List.nodup_append]
    exact ⟨hnd, List.nodup_singleton k, by simpa using hk⟩

theorem keys_deleteHistory (k : Int) (t : Table) :
    ((deleteHistory k t).map Prod.fst).Sublist (t.map Prod.fst) := by
  induction t with
  | nil => simp [deleteHistory]
  | cons p t ih =>
    obtain ⟨k1, h1⟩ := p
    by_cases hk : k1 = k
    · simp only [deleteHistory, hk, if_true, List.map_cons]
      exact List.Sublist.cons _ ih
    · simp only [deleteHistory, hk, if_false, List.map_cons]
      exact List.Sublist.cons₂ _ ih

/-- On a sticky array, a decided element fixes what `_determineLongPress` returns. -/
theorem sticky_determine (l : List Snapshot) (hs : Sticky l) (a : Snapshot) (ha : a ∈ l)
    (hd : Decided a.longPress) (touch : Touch) (now : Int) (isTouchEnd : Bool) :
    some (_determineLongPress touch (some l) now isTouchEnd) = a.longPress := by
  cases l with
  | nil => simp at ha
  | cons first rest =>
    have hne : first :: rest ≠ [] := List.cons_ne_nil first rest
    have hlast : ((first :: rest).getLast hne).longPress = a.longPress := by
      have hsplit := List.dropLast_append_getLast hne
      rw [← hsplit] at ha
      rcases List.mem_append.mp ha with ha1 | ha1
      · unfold Sticky at hs
        rw [← hsplit, List.pairwise_append] at hs
        exact hs.2.2 a ha1 _ (List.mem_singleton_self _) hd
      · rw [List.mem_singleton.mp ha1]
    rcases hd with hd | hd
    · rw [hd] at hlast ⊢
      rw [determineLongPress_decided touch first rest now isTouchEnd LongPress.false hlast
        (by simp)]
    · rw [hd] at hlast ⊢
      rw [determineLongPress_decided touch first rest now isTouchEnd LongPress.true hlast
        (by simp)]

theorem sticky_push (l : List Snapshot) (hs : Sticky l) (now : Int) (touch : Touch)
    (origin : Origin) (h : HistoryArray) (count : Nat) (isTouchEnd : Bool)
    (hl : h.elems = l) :
    Sticky (l ++ [_timestampTouch now touch origin (some h) count isTouchEnd]) := by
  unfold Sticky
  rw [List.pairwise_append]
  refine ⟨hs, List.pairwise_singleton _ _, ?_⟩
  intro a ha b hb hd
  rw [List.mem_singleton.mp hb]
  simp only [_timestampTouch, Option.map_some', hl]
  exact sticky_determine l hs a ha hd touch now isTouchEnd

theorem tableInv_set (t : Table) (hinv : TableInv t) (k : Int) (h : HistoryArray)
    (hne : h.elems ≠ []) (hs : Sticky h.elems) : TableInv (setHistory k h t) := by
  refine ⟨nodup_setHistory k h t hinv.1, ?_⟩
  intro p hp
  rcases mem_setHistory k h t p hp with hp | hp
  · exact hinv.2 p hp
  · subst hp; exact ⟨hne, hs⟩

theorem tableInv_delete (t : Table) (hinv : TableInv t) (k : Int) :
    TableInv (deleteHistory k t) :=
  ⟨List.Nodup.sublist (keys_deleteHistory k t) hinv.1,
    fun p hp => hinv.2 p (mem_deleteHistory k t p hp)⟩

theorem tableInv_track (s : State) (hinv : TableInv s.touchHistory) (data : Snapshot) :
    TableInv (track s data).touchHistory :=
  tableInv_set s.touchHistory hinv data.touch.identifier ⟨s.nextArrayId, [data]⟩
    (by simp) (List.pairwise_singleton _ _)

theorem tableInv_startTouch (clock : Nat → Int) (event : TouchEvent) (s : State)
    (hinv : TableInv s.touchHistory) (touch : Touch) :
    TableInv (handleStartTouch clock event s touch).touchHistory := by
  unfold handleStartTouch
  simp only []
  split
  · exact tableInv_track _ hinv _
  · exact hinv

theorem tableInv_moveTouch (clock : Nat → Int) (event : TouchEvent) (s : State)
    (hinv : TableInv s.touchHistory) (touch : Touch) :
    TableInv (handleMoveTouch clock event s touch).touchHistory := by
  cases hl : lookupHistory touch.identifier s.touchHistory with
  | none => rw [handleMoveTouch_none clock event s touch hl]; exact hinv
  | some h =>
    rw [handleMoveTouch_some clock event s touch h hl]
    have hmem := hinv.2 _ (lookupHistory_mem _ h _ hl)
    exact tableInv_set s.touchHistory hinv touch.identifier _ (by simp)
      (sticky_push h.elems hmem.2 _ touch event.origin h _ false rfl)

theorem tableInv_endTouch (clock : Nat → Int) (event : TouchEvent) (s : State)
    (hinv : TableInv s.touchHistory) (touch : Touch) :
    TableInv (handleEndTouch clock event s touch).touchHistory := by
  cases hl : lookupHistory touch.identifier s.touchHistory with
  | none => rw [handleEndTouch_none clock event s touch hl]; exact hinv
  | some h =>
    rw [handleEndTouch_some clock event s touch h hl]
    exact tableInv_delete s.touchHistory hinv touch.identifier

theorem tableInv_foldl (f : State → Touch → State)
    (hf : ∀ s touch, TableInv s.touchHistory → TableInv (f s touch).touchHistory)
    (l : List Touch) : ∀ s : State, TableInv s.touchHistory →
      TableInv (l.foldl f s).touchHistory := by
  induction l with
  | nil => intro s hs; exact hs
  | cons a l ih => intro s hs; exact ih _ (hf s a hs)

/-- Every notification or call completes on a state that satisfies the invariant, and keeps
the invariant. -/
theorem step_inv (clock : Nat → Int) (s : State) (hinv : TableInv s.touchHistory) (op : Op) :
    ∃ s1 : State, step clock s op = some s1 ∧ TableInv s1.touchHistory := by
  cases op with
  | touchstart event =>
    exact ⟨_, rfl, tableInv_foldl _ (fun s t h => tableInv_startTouch clock event s h t) _ s hinv⟩
  | touchmove event =>
    exact ⟨_, rfl, tableInv_foldl _ (fun s t h => tableInv_moveTouch clock event s h t) _ s hinv⟩
  | touchend event =>
    exact ⟨_, rfl, tableInv_foldl _ (fun s t h => tableInv_endTouch clock event s h t) _ s hinv⟩
  | touchcancel event =>
    exact ⟨_, rfl, tableInv_foldl _ (fun s t h => tableInv_endTouch clock event s h t) _ s hinv⟩
  | unpipe =>
    obtain ⟨s1, _, _, hrun, hnil, _⟩ := handleUnpipe_complete clock s hinv.1
      (fun p hp => (hinv.2 p hp).1)
    refine ⟨s1, hrun, ?_⟩
    rw [hnil]
    exact ⟨List.nodup_nil, by simp⟩
  | track data => exact ⟨_, rfl, tableInv_track s hinv data⟩

theorem run_inv (clock : Nat → Int) (ops : List Op) :
    ∀ s : State, TableInv s.touchHistory →
      ∃ s1 : State, run clock s ops = some s1 ∧ TableInv s1.touchHistory := by
  induction ops with
  | nil => intro s hs; exact ⟨s, rfl, hs⟩
  | cons op ops ih =>
    intro s hs
    obtain ⟨s1, h1, hinv1⟩ := step_inv clock s hs op
    obtain ⟨s2, h2, hinv2⟩ := ih s1 hinv1
    exact ⟨s2, by simp [run, h1, h2], hinv2⟩

/-! ## Claims about the classification -/

/-- C7: for a non-empty history whose latest entry is `'unknown'`, `_determineLongPress`
returns `'true'` exactly when at least 1000 ms have passed since the first entry and the
touch is within 5 of the first entry in both X and Y, whatever `isTouchEnd` is. -/
theorem longPress_true_iff (touch : Touch) (history : List Snapshot) (now : Int)
    (isTouchEnd : Bool) (hne : history ≠ [])
    (hlast : (history.getLast hne).longPress = some LongPress.unknown) :
    _determineLongPress touch (some history) now isTouchEnd = LongPress.true ↔
      (now - (history.head hne).timestamp ≥ 1000 ∧
        |touch.clientX - (history.head hne).touch.clientX| ≤ 5 ∧
        |touch.clientY - (history.head hne).touch.clientY| ≤ 5) := by
  cases history with
  | nil => exact absurd rfl hne
  | cons first rest =>
    have hu : ¬ Decided ((first :: rest).getLast (List.cons_ne_nil first rest)).longPress := by
      rw [hlast]; exact not_decided_unknown
    rw [determineLongPress_undecided touch first rest now isTouchEnd hu, List.head_cons,
      ← classifyAgainstFirst_true_iff]
    cases hcl : classifyAgainstFirst touch first now <;> cases isTouchEnd <;> simp

/-- C7, instances: a start at t=0, (0,0) followed by a move at t=1100, (1,1) gives `'true'`,
and so does the boundary of 1000 ms elapsed with a displacement of 5. -/
theorem longPress_true_iff_witness :
    _determineLongPress ⟨1, 1, 1⟩ (some [originStart]) 1100 false = LongPress.true ∧
    _determineLongPress ⟨1, 5, -5⟩ (some [originStart]) 1000 false = LongPress.true :=
  ⟨(longPress_true_iff ⟨1, 1, 1⟩ [originStart] 1100 false (by decide) (by decide)).mpr
      ⟨by decide, by decide, by decide⟩,
    (longPress_true_iff ⟨1, 5, -5⟩ [originStart] 1000 false (by decide) (by decide)).mpr
      ⟨by decide, by decide, by decide⟩⟩

/-- C8: for a non-empty history whose latest entry is `'unknown'`, a touch more than 5 away
from the first entry in X or in Y (equivalently, with `max |dx| |dy| > 5`) makes
`_determineLongPress` return `'false'`, whatever the elapsed time and `isTouchEnd` are. -/
theorem longPress_false_of_moved (touch : Touch) (history : List Snapshot) (now : Int)
    (isTouchEnd : Bool) (hne : history ≠ [])
    (hlast : (history.getLast hne).longPress = some LongPress.unknown)
    (hmoved : max |touch.clientX - (history.head hne).touch.clientX|
      |touch.clientY - (history.head hne).touch.clientY| > 5) :
    (|touch.clientX - (history.head hne).touch.clientX| > 5 ∨
      |touch.clientY - (history.head hne).touch.clientY| > 5) ∧
    _determineLongPress touch (some history) now isTouchEnd = LongPress.false := by
  cases history with
  | nil => exact absurd rfl hne
  | cons first rest =>
    have hu : ¬ Decided ((first :: rest).getLast (List.cons_ne_nil first rest)).longPress := by
      rw [hlast]; exact not_decided_unknown
    rw [List.head_cons] at hmoved ⊢
    have hor : 5 < |touch.clientX - first.touch.clientX| ∨
        5 < |touch.clientY - first.touch.clientY| := lt_max_iff.mp hmoved
    refine ⟨hor, ?_⟩
    rw [determineLongPress_undecided touch first rest now isTouchEnd hu,
      classifyAgainstFirst_moved touch first now ((movedTooFar_iff touch first).mpr hor)]
    cases isTouchEnd <;> simp

/-- C8, instance: a start at t=0, (0,0) followed by a move at t=200, (10,0) gives `'false'`. -/
theorem longPress_false_of_moved_witness :
    _determineLongPress ⟨1, 10, 0⟩ (some [originStart]) 200 false = LongPress.false :=
  (longPress_false_of_moved ⟨1, 10, 0⟩ [originStart] 200 false (by decide) (by decide)
    (by decide)).2

/-- C9: for a non-empty history whose latest entry is `'false'` or `'true'`,
`_determineLongPress` returns that value for every touch, every `now` and both values of
`isTouchEnd`. -/
theorem longPress_sticky (touch : Touch) (history : List Snapshot) (now : Int)
    (isTouchEnd : Bool) (v : LongPress) (hne : history ≠ [])
    (hlast : (history.getLast hne).longPress = some v)
    (hv : v = LongPress.false ∨ v = LongPress.true) :
    _determineLongPress touch (some history) now isTouchEnd = v := by
  cases history with
  | nil => exact absurd rfl hne
  | cons first rest =>
    apply determineLongPress_decided touch first rest now isTouchEnd v hlast
    rcases hv with hv | hv <;> simp [hv]

/-- C9, instance: a contact classified `'false'` stays `'false'` on a later move back to the
start position, long after the threshold. -/
theorem longPress_sticky_witness :
    _determineLongPress ⟨1, 0, 0⟩ (some draggedHistory) 5000 false = LongPress.false :=
  longPress_sticky ⟨1, 0, 0⟩ draggedHistory 5000 false LongPress.false (by decide) (by decide)
    (Or.inl rfl)

/-- C10: with `isTouchEnd = true`, `_determineLongPress` returns `'false'` or `'true'` for
every touch, every history (undefined, empty or not) and every `now`; hence every record
emitted by `_handleEnd` or `_handleUnpipe` is a `trackend` with a decided `longPress`. -/
theorem trackend_never_unknown (clock : Nat → Int) (s : State) :
    (∀ (touch : Touch) (history : Option (List Snapshot)) (now : Int),
      _determineLongPress touch history now true = LongPress.false ∨
      _determineLongPress touch history now true = LongPress.true) ∧
    (∀ (event : TouchEvent), ∀ e ∈ emittedSince s (_handleEnd clock s event),
      e.type = TrackEvent.trackend ∧ Decided e.data.longPress) ∧
    (∀ s1 : State, _handleUnpipe clock s = some s1 → ∀ e ∈ emittedSince s s1,
      e.type = TrackEvent.trackend ∧ Decided e.data.longPress) := by
  have key : ∀ (touch : Touch) (history : Option (List Snapshot)) (now : Int),
      _determineLongPress touch history now true = LongPress.false ∨
      _determineLongPress touch history now true = LongPress.true := by
    intro touch history now
    have h := determineLongPress_end_decided touch history now
    cases hv : _determineLongPress touch history now true with
    | unknown => exact absurd hv h
    | false => exact Or.inl rfl
    | true => exact Or.inr rfl
  refine ⟨key, ?_, ?_⟩
  · intro event e he
    obtain ⟨touch, now, h, _, _, heq⟩ := handleEnd_emitted clock s event e he
    subst heq
    refine ⟨rfl, ?_⟩
    rcases key touch (some h.elems) now with hk | hk
    · exact Or.inl (by simp [_timestampTouch, hk])
    · exact Or.inr (by simp [_timestampTouch, hk])
  · intro s1 hrun e he
    obtain ⟨i, h, last, _, _, heq⟩ := handleUnpipe_emitted clock s s1 hrun e he
    subst heq
    refine ⟨rfl, ?_⟩
    rcases key last.touch (some h.elems) (clock s.dateNowCalls) with hk | hk
    · exact Or.inl (by simp [unpipeData, hk])
    · exact Or.inr (by simp [unpipeData, hk])

/-- C10, instance: the records emitted when contact 1 of `pressedState` is released, or when
the tracker is unpiped, carry a decided `longPress`. -/
theorem trackend_never_unknown_witness :
    Decided releaseRecord.data.longPress ∧ Decided unpipeRecord.data.longPress :=
  ⟨((trackend_never_unknown heldClock pressedState).2.1 releaseEvent releaseRecord
      (by decide)).2,
    ((trackend_never_unknown heldClock pressedState).2.2 unpipedState (by decide) unpipeRecord
      (by decide)).2⟩

/-! ## Claims about the handlers -/

/-- C1, as the code has it: for a tracked contact whose latest stored sample is `'unknown'`,
the `trackend` record of `_handleEnd` (and of `_handleUnpipe`, whose end position is that of
the latest stored sample) has `longPress = 'true'` when at least 1000 ms have passed since the
first stored sample and the end position is within 5 of it in both X and Y, and `'false'`
otherwise. -/
theorem trackend_resolves_unknown (clock : Nat → Int) (s : State) :
    (∀ (event : TouchEvent), ∀ e ∈ emittedSince s (_handleEnd clock s event),
      ∀ (h : HistoryArray) (first last : Snapshot),
        lookupHistory e.data.touch.identifier s.touchHistory = some h →
        h.elems.head? = some first → h.elems.getLast? = some last →
        last.longPress = some LongPress.unknown →
        e.type = TrackEvent.trackend ∧ e.data.history = some h.id ∧
        e.data.longPress = some
          (if 1000 ≤ e.data.timestamp - first.timestamp ∧
              |e.data.touch.clientX - first.touch.clientX| ≤ 5 ∧
              |e.data.touch.clientY - first.touch.clientY| ≤ 5
           then LongPress.true else LongPress.false)) ∧
    (∀ s1 : State, _handleUnpipe clock s = some s1 → ∀ e ∈ emittedSince s s1,
      ∃ (i : Int) (h : HistoryArray) (first last : Snapshot),
        lookupHistory i s.touchHistory = some h ∧
        h.elems.head? = some first ∧ h.elems.getLast? = some last ∧
        e = ⟨TrackEvent.trackend, unpipeData (clock s.dateNowCalls) h last⟩ ∧
        (last.longPress = some LongPress.unknown →
          e.data.longPress = some
            (if 1000 ≤ e.data.timestamp - first.timestamp ∧
                |e.data.touch.clientX - first.touch.clientX| ≤ 5 ∧
                |e.data.touch.clientY - first.touch.clientY| ≤ 5
             then LongPress.true else LongPress.false))) := by
  constructor
  · intro event e he h first last hl hfirst hlast hunk
    obtain ⟨touch, now, h1, _, hlk, heq⟩ := handleEnd_emitted clock s event e he
    subst heq
    have hl2 : lookupHistory touch.identifier s.touchHistory = some h := hl
    rw [hlk] at hl2
    cases hl2
    refine ⟨rfl, rfl, ?_⟩
    exact timestampTouch_end_undecided now touch event.origin h event.touches.length first
      last hfirst hlast (by rw [hunk]; exact not_decided_unknown)
  · intro s1 hrun e he
    obtain ⟨i, h, last, hlk, hlast, heq⟩ := handleUnpipe_emitted clock s s1 hrun e he
    subst heq
    cases helems : h.elems with
    | nil => rw [helems] at hlast; simp at hlast
    | cons f r =>
      refine ⟨i, h, f, last, hlk, by rw [helems]; rfl, hlast, rfl, ?_⟩
      intro hunk
      exact unpipeData_undecided (clock s.dateNowCalls) h f last (by rw [helems]; rfl) hlast
        (by rw [hunk]; exact not_decided_unknown)

/-- C1, instance of the amended statement: contact 1 of `pressedState`, released at t=1100
where it started. -/
theorem trackend_resolves_unknown_witness :
    releaseRecord.type = TrackEvent.trackend ∧ releaseRecord.data.history = some 0 ∧
    releaseRecord.data.longPress = some
      (if 1000 ≤ releaseRecord.data.timestamp - originStart.timestamp ∧
          |releaseRecord.data.touch.clientX - originStart.touch.clientX| ≤ 5 ∧
          |releaseRecord.data.touch.clientY - originStart.touch.clientY| ≤ 5
       then LongPress.true else LongPress.false) :=
  (trackend_resolves_unknown heldClock pressedState).1 releaseEvent releaseRecord (by decide)
    ⟨0, [originStart]⟩ originStart originStart (by decide) (by decide) (by decide) (by decide)

/-- C1 fails as stated: contact 1 starts at t=0 at (0,0), its only stored sample is
`'unknown'`, and its release at t=1100 at the same position, like an unpipe at t=1100, emits a
`trackend` whose `longPress` is `'true'`, not `'false'`. -/
theorem trackend_after_hold_is_true :
    (lookupHistory 1 pressedState.touchHistory).map
        (fun h => h.elems.map Snapshot.longPress) = some [some LongPress.unknown] ∧
    emittedSince pressedState (_handleEnd heldClock pressedState releaseEvent) =
      [releaseRecord] ∧
    releaseRecord.data.longPress = some LongPress.true ∧
    releaseRecord.data.longPress ≠ some LongPress.false ∧
    (_handleUnpipe heldClock pressedState).map (emittedSince pressedState) =
      some [unpipeRecord] ∧
    unpipeRecord.data.longPress = some LongPress.true := by
  decide

/-- C5: a changed touch of a `touchmove` or `touchend`/`touchcancel` batch whose identifier has
no entry in the history table changes nothing and emits nothing; every record a batch emits
belongs to a touch that had an entry; and a batch of such touches only leaves the whole
tracker, its table and its output included, unchanged. -/
theorem untracked_ignored (clock : Nat → Int) (s : State) (event : TouchEvent) :
    (∀ touch : Touch, lookupHistory touch.identifier s.touchHistory = none →
      handleMoveTouch clock event s touch = s ∧ handleEndTouch clock event s touch = s) ∧
    (∀ e ∈ emittedSince s (_handleMove clock s event),
      (lookupHistory e.data.touch.identifier s.touchHistory).isSome = true) ∧
    (∀ e ∈ emittedSince s (_handleEnd clock s event),
      (lookupHistory e.data.touch.identifier s.touchHistory).isSome = true) ∧
    ((∀ touch ∈ event.changedTouches, lookupHistory touch.identifier s.touchHistory = none) →
      _handleMove clock s event = s ∧ _handleEnd clock s event = s) := by
  refine ⟨?_, ?_, ?_, ?_⟩
  · intro touch hl
    exact ⟨handleMoveTouch_none clock event s touch hl, handleEndTouch_none clock event s touch hl⟩
  · intro e he
    obtain ⟨es, h1, h2⟩ := handleMove_loop_emitted clock event event.changedTouches s
    rw [emittedSince_append s (_handleMove clock s event) es h1] at he
    exact (h2 e he).2.2
  · intro e he
    obtain ⟨touch, now, h, _, hlk, heq⟩ := handleEnd_emitted clock s event e he
    subst heq
    simp [_timestampTouch, hlk]
  · intro hall
    unfold _handleMove _handleEnd
    generalize event.changedTouches = l at hall
    induction l with
    | nil => exact ⟨rfl, rfl⟩
    | cons a l ih =>
      have ha := hall a (List.mem_cons_self _ _)
      rw [List.foldl_cons, List.foldl_cons, handleMoveTouch_none clock event s a ha,
        handleEndTouch_none clock event s a ha]
      exact ih (fun t ht => hall t (List.mem_cons_of_mem _ ht))

/-- C5, instance: a `touchmove` and a `touchend` of contact 2 reach a tracker that tracks
contact 1 only. -/
theorem untracked_ignored_witness :
    _handleMove heldClock pressedState strayEvent = pressedState ∧
    _handleEnd heldClock pressedState strayEvent = pressedState :=
  (untracked_ignored heldClock pressedState strayEvent).2.2.2 (by decide)

/-- C6: a selective tracker emits one `trackstart` per changed touch of a `touchstart` batch
and leaves its table unchanged; a following `touchmove` of an identifier without an entry is
dropped, and after `track(snapshot)` for that identifier the same move emits a `trackmove`
built from the array `[snapshot]`. -/
theorem selective_start (clock : Nat → Int) (s : State) (event : TouchEvent)
    (hsel : s.selective = true) :
    (_handleStart clock s event).touchHistory = s.touchHistory ∧
    (emittedSince s (_handleStart clock s event)).map (fun e => (e.type, e.data.touch)) =
      event.changedTouches.map (fun t => (TrackEvent.trackstart, t)) ∧
    (∀ (move : TouchEvent) (touch : Touch), move.changedTouches = [touch] →
      lookupHistory touch.identifier s.touchHistory = none →
      _handleMove clock (_handleStart clock s event) move = _handleStart clock s event) ∧
    (∀ (move : TouchEvent) (touch : Touch) (snapshot : Snapshot),
      move.changedTouches = [touch] → snapshot.touch.identifier = touch.identifier →
      emittedSince (track (_handleStart clock s event) snapshot)
          (_handleMove clock (track (_handleStart clock s event) snapshot) move) =
        [⟨TrackEvent.trackmove,
          _timestampTouch (clock (_handleStart clock s event).dateNowCalls) touch move.origin
            (some ⟨s.nextArrayId, [snapshot]⟩) move.touches.length false⟩]) := by
  obtain ⟨htab, _, hnext⟩ := handleStart_loop_selective clock event event.changedTouches s hsel
  obtain ⟨es, h1, h2⟩ := handleStart_loop_emitted clock event event.changedTouches s
  refine ⟨htab, ?_, ?_, ?_⟩
  · rw [emittedSince_append s (_handleStart clock s event) es h1]
    have h3 := congrArg (List.map (fun q : TrackEvent × Touch × Nat × Option Nat ×
      Option LongPress => (q.1, q.2.1))) h2
    simpa [List.map_map, Function.comp_def] using h3
  · intro move touch hm hl
    rw [handleMove_single clock _ move touch hm]
    apply handleMoveTouch_none
    unfold _handleStart
    rw [htab]
    exact hl
  · intro move touch snapshot hm hid
    have hl : lookupHistory touch.identifier
        (track (_handleStart clock s event) snapshot).touchHistory =
        some ⟨s.nextArrayId, [snapshot]⟩ := by
      unfold _handleStart
      simp [track, lookupHistory_setHistory, hid, hnext]
    rw [handleMove_single clock _ move touch hm, handleMoveTouch_some clock move _ touch _ hl]
    simp [emittedSince, track]

/-- C6, instance: a selective tracker receives `pressEvent`; its table stays empty, a
following move of contact 1 is dropped, and after `track` of a snapshot of contact 1 the same
move emits one `trackmove`. -/
theorem selective_start_witness :
    (_handleStart heldClock (TouchTracker true) pressEvent).touchHistory = [] ∧
    _handleMove heldClock (_handleStart heldClock (TouchTracker true) pressEvent) nudgeEvent =
      _handleStart heldClock (TouchTracker true) pressEvent ∧
    emittedSince (track (_handleStart heldClock (TouchTracker true) pressEvent) originStart)
        (_handleMove heldClock
          (track (_handleStart heldClock (TouchTracker true) pressEvent) originStart)
          nudgeEvent) =
      [⟨TrackEvent.trackmove,
        _timestampTouch 1100 ⟨1, 1, 1⟩ 0 (some ⟨0, [originStart]⟩) 1 false⟩] :=
  ⟨(selective_start heldClock (TouchTracker true) pressEvent rfl).1,
    (selective_start heldClock (TouchTracker true) pressEvent rfl).2.2.1 nudgeEvent ⟨1, 1, 1⟩
      rfl rfl,
    (selective_start heldClock (TouchTracker true) pressEvent rfl).2.2.2 nudgeEvent ⟨1, 1, 1⟩
      originStart rfl rfl⟩

/-- C3: a non-selective tracker without an entry for `id` receives one single-contact
`touchstart` for `id`, then the single-contact `touchmove` batches `moves` for `id`, then one
single-contact `touchend` for `id`.  It emits `trackstart`, one `trackmove` per move and
`trackend`, in that order, and the array stored for `id` has `k + 1` elements after the
`k`-th move (one element after the start). -/
theorem lifecycle (clock : Nat → Int) (s : State) (id : Int) (start finish : TouchEvent)
    (moves : List TouchEvent) (t0 t1 : Touch)
    (hsel : s.selective = false) (hnone : lookupHistory id s.touchHistory = none)
    (hstart : start.changedTouches = [t0]) (ht0 : t0.identifier = id)
    (hmoves : ∀ m ∈ moves, ∃ t : Touch, m.changedTouches = [t] ∧ t.identifier = id)
    (hfinish : finish.changedTouches = [t1]) (ht1 : t1.identifier = id) :
    run clock s (Op.touchstart start :: (moves.map Op.touchmove ++ [Op.touchend finish])) =
      some (_handleEnd clock (moves.foldl (_handleMove clock) (_handleStart clock s start))
        finish) ∧
    (emittedSince s (_handleEnd clock (moves.foldl (_handleMove clock)
        (_handleStart clock s start)) finish)).map Emission.type =
      TrackEvent.trackstart ::
        (List.replicate moves.length TrackEvent.trackmove ++ [TrackEvent.trackend]) ∧
    (∀ k : Nat, k ≤ moves.length →
      (lookupHistory id ((moves.take k).foldl (_handleMove clock)
        (_handleStart clock s start)).touchHistory).map (fun h => h.elems.length) =
          some (k + 1)) := by
  subst ht0
  have hs0 : _handleStart clock s start =
      track { s with dateNowCalls := s.dateNowCalls + 1
                     eventOutput := s.eventOutput ++ [⟨TrackEvent.trackstart,
                       _timestampTouch (clock s.dateNowCalls) t0 start.origin none
                         start.touches.length false⟩] }
        (_timestampTouch (clock s.dateNowCalls) t0 start.origin none
          start.touches.length false) := by
    rw [handleStart_single clock s start t0 hstart]
    simp [handleStartTouch, hsel, hnone]
  have hl0 : lookupHistory t0.identifier (_handleStart clock s start).touchHistory =
      some ⟨s.nextArrayId, [_timestampTouch (clock s.dateNowCalls) t0 start.origin none
        start.touches.length false]⟩ := by
    rw [hs0]
    simp [track, lookupHistory_setHistory, _timestampTouch]
  have hout0 : (_handleStart clock s start).eventOutput.map Emission.type =
      s.eventOutput.map Emission.type ++ [TrackEvent.trackstart] := by
    rw [hs0]
    simp [track]
  refine ⟨?_, ?_, ?_⟩
  · simp [run, step, run_moves]
  · obtain ⟨h1, hl1, _, hout1⟩ := moves_of_tracked clock t0.identifier moves
      (_handleStart clock s start) _ hl0 hmoves
    rw [← ht1] at hl1
    rw [handleEnd_single clock _ finish t1 hfinish, handleEndTouch_some clock finish _ t1 h1 hl1]
    unfold emittedSince
    rw [List.map_drop]
    simp only [List.map_append, List.map_cons, List.map_nil, hout1, hout0, List.append_assoc]
    rw [← List.length_map s.eventOutput Emission.type, List.drop_left]
    simp
  · intro k hk
    obtain ⟨h1, hl1, hlen, _⟩ := moves_of_tracked clock t0.identifier (moves.take k)
      (_handleStart clock s start) _ hl0
      (fun m hm => hmoves m (List.mem_of_mem_take hm))
    rw [hl1]
    simp [hlen, List.length_take, hk]
    omega

/-- C3, instance: contact 1 starts, moves twice and ends on a fresh non-selective tracker. -/
theorem lifecycle_witness :
    (emittedSince (TouchTracker false)
        (_handleEnd heldClock ([nudgeEvent, nudgeEvent].foldl (_handleMove heldClock)
          (_handleStart heldClock (TouchTracker false) pressEvent)) releaseEvent)).map
        Emission.type =
      [TrackEvent.trackstart, TrackEvent.trackmove, TrackEvent.trackmove,
        TrackEvent.trackend] :=
  (lifecycle heldClock (TouchTracker false) 1 pressEvent releaseEvent [nudgeEvent, nudgeEvent]
    ⟨1, 0, 0⟩ ⟨1, 0, 0⟩ rfl rfl rfl rfl
    (fun m hm => ⟨⟨1, 1, 1⟩, by simp at hm; subst hm; exact ⟨rfl, rfl⟩⟩) rfl rfl).2.1

/-- C4: on a table with distinct keys and non-empty arrays, `_handleUnpipe` completes, leaves
the table empty, and emits as many records as the table has identifiers: one `trackend` per
entry, with `count = 0`, the touch of the entry's last stored sample, a reference to the
entry's array and the time read at the start of the handler. -/
theorem forced_termination (clock : Nat → Int) (s : State)
    (hkeys : (s.touchHistory.map Prod.fst).Nodup)
    (hne : ∀ p ∈ s.touchHistory, p.2.elems ≠ []) :
    ∃ (s1 : State) (order : List (Int × HistoryArray)),
      _handleUnpipe clock s = some s1 ∧
      s1.touchHistory = [] ∧
      order.Perm s.touchHistory ∧
      (emittedSince s s1).length = s.touchHistory.length ∧
      List.Forall₂ (fun p e => e.type = TrackEvent.trackend ∧ e.data.count = 0 ∧
          p.2.elems.getLast?.map Snapshot.touch = some e.data.touch ∧
          e.data.history = some p.2.id ∧ e.data.timestamp = clock s.dateNowCalls)
        order (emittedSince s s1) := by
  obtain ⟨s1, order, es, hrun, hnil, hout, hord, hmem, hrel⟩ :=
    handleUnpipe_complete clock s hkeys hne
  have hperm := forInKeys_perm s.touchHistory
  have hes : emittedSince s s1 = es := emittedSince_append s s1 es hout
  have hlen : order.length = s.touchHistory.length := by
    have h1 := congrArg List.length hord
    rw [List.length_map] at h1
    rw [h1, hperm.length_eq, List.length_map]
  have hordperm : order.Perm s.touchHistory := by
    apply List.Subperm.perm_of_length_le
    · apply List.subperm_of_subset
      · apply List.Nodup.of_map Prod.fst
        rw [hord]; exact hperm.nodup_iff.mpr hkeys
      · intro p hp
        exact lookupHistory_mem p.1 p.2 s.touchHistory (hmem p hp)
    · exact le_of_eq hlen.symm
  refine ⟨s1, order, hrun, hnil, hordperm, ?_, ?_⟩
  · rw [hes, ← hrel.length_eq, hlen]
  · rw [hes]
    refine hrel.imp ?_
    rintro p e ⟨last, hlast, rfl⟩
    exact ⟨rfl, rfl, by simp [hlast, unpipeData], rfl, rfl⟩

/-- C4, instance: two open contacts 1 and 2; unpiping emits two `trackend` records with
`count = 0`, one per contact with the contact's last touch, and empties the table. -/
theorem forced_termination_witness :
    (∃ (s1 : State) (order : List (Int × HistoryArray)),
      _handleUnpipe heldClock twoContactsState = some s1 ∧
      s1.touchHistory = [] ∧
      order.Perm twoContactsState.touchHistory ∧
      (emittedSince twoContactsState s1).length = twoContactsState.touchHistory.length ∧
      List.Forall₂ (fun p e => e.type = TrackEvent.trackend ∧ e.data.count = 0 ∧
          p.2.elems.getLast?.map Snapshot.touch = some e.data.touch ∧
          e.data.history = some p.2.id ∧
          e.data.timestamp = heldClock twoContactsState.dateNowCalls)
        order (emittedSince twoContactsState s1)) ∧
    (_handleUnpipe heldClock twoContactsState).map (fun s1 => (s1.touchHistory,
        (emittedSince twoContactsState s1).map
          (fun e => (e.type, e.data.count, e.data.touch)))) =
      some ([], [(TrackEvent.trackend, 0, ⟨1, 0, 0⟩), (TrackEvent.trackend, 0, ⟨2, 10, 10⟩)]) :=
  ⟨forced_termination heldClock twoContactsState (by decide) (by decide), by decide⟩

/-- C2: after every sequence of `touchstart`, `touchmove`, `touchend`/`touchcancel`, `unpipe`
notifications and `track` calls on a fresh tracker (the sequence always completes), in every
stored history a snapshot whose `longPress` is `'false'` or `'true'` is followed only by
snapshots with the same `longPress`, and the `trackend` record that `_handleEnd` or
`_handleUnpipe` then builds from a stored history repeats the `longPress` of every decided
snapshot of that history. -/
theorem longPress_monotone (clock : Nat → Int) (selective : Bool) (ops : List Op) :
    ∃ s : State, run clock (TouchTracker selective) ops = some s ∧
      (∀ (id : Int) (h : HistoryArray), lookupHistory id s.touchHistory = some h →
        h.elems.Pairwise (fun a b => Decided a.longPress → b.longPress = a.longPress)) ∧
      (∀ (event : TouchEvent), ∀ e ∈ emittedSince s (_handleEnd clock s event),
        ∀ h : HistoryArray, lookupHistory e.data.touch.identifier s.touchHistory = some h →
          e.type = TrackEvent.trackend ∧ e.data.history = some h.id ∧
          ∀ x ∈ h.elems, Decided x.longPress → e.data.longPress = x.longPress) ∧
      (∀ s1 : State, _handleUnpipe clock s = some s1 → ∀ e ∈ emittedSince s s1,
        ∃ (i : Int) (h : HistoryArray) (last : Snapshot),
          lookupHistory i s.touchHistory = some h ∧ h.elems.getLast? = some last ∧
          e = ⟨TrackEvent.trackend, unpipeData (clock s.dateNowCalls) h last⟩ ∧
          ∀ x ∈ h.elems, Decided x.longPress → e.data.longPress = x.longPress) := by
  obtain ⟨s, hrun, hinv⟩ := run_inv clock ops (TouchTracker selective)
    ⟨List.nodup_nil, by simp [TouchTracker]⟩
  refine ⟨s, hrun, ?_, ?_, ?_⟩
  · intro id h hl
    exact (hinv.2 _ (lookupHistory_mem id h _ hl)).2
  · intro event e he h hl
    obtain ⟨touch, now, h1, _, hlk, heq⟩ := handleEnd_emitted clock s event e he
    subst heq
    have hl2 : lookupHistory touch.identifier s.touchHistory = some h := hl
    rw [hlk] at hl2
    cases hl2
    refine ⟨rfl, rfl, ?_⟩
    intro x hx hd
    have hst := (hinv.2 _ (lookupHistory_mem _ h _ hlk)).2
    simp only [_timestampTouch, Option.map_some']
    exact sticky_determine h.elems hst x hx hd touch now true
  · intro s1 hun e he
    obtain ⟨i, h, last, hlk, hlast, heq⟩ := handleUnpipe_emitted clock s s1 hun e he
    refine ⟨i, h, last, hlk, hlast, heq, ?_⟩
    subst heq
    intro x hx hd
    have hst := (hinv.2 _ (lookupHistory_mem _ h _ hlk)).2
    simp only [unpipeData]
    exact sticky_determine h.elems hst x hx hd last.touch (clock s.dateNowCalls) true

/-- C2, instance: contact 1 is classified `'false'` by a drag at t=1100 and keeps that value
on the move back to (1, 1) at t=2200. -/
theorem longPress_monotone_witness :
    (∃ s : State, run heldClock (TouchTracker false) dragOps = some s ∧
      ∀ (id : Int) (h : HistoryArray), lookupHistory id s.touchHistory = some h →
        h.elems.Pairwise (fun a b => Decided a.longPress → b.longPress = a.longPress)) ∧
    (run heldClock (TouchTracker false) dragOps).map
        (fun s => s.touchHistory.map (fun p => p.2.elems.map Snapshot.longPress)) =
      some [[some LongPress.unknown, some LongPress.false, some LongPress.false]] :=
  ⟨(longPress_monotone heldClock false dragOps).imp (fun _ h => ⟨h.1, h.2.1⟩), by decide⟩

/-! ## Claims about undecided samples, `track` and `touchstart` -/

theorem classifyAgainstFirst_congr (touch : Touch) (f1 f2 : Snapshot) (now : Int)
    (hts : f1.timestamp = f2.timestamp) (hx : f1.touch.clientX = f2.touch.clientX)
    (hy : f1.touch.clientY = f2.touch.clientY) :
    classifyAgainstFirst touch f1 now = classifyAgainstFirst touch f2 now := by
  simp [classifyAgainstFirst, movedTooFar, hts, hx, hy]

theorem classifyAgainstFirst_unknown (touch : Touch) (first : Snapshot) (now : Int)
    (ht : now - first.timestamp < 1000) (hx : |touch.clientX - first.touch.clientX| ≤ 5)
    (hy : |touch.clientY - first.touch.clientY| ≤ 5) :
    classifyAgainstFirst touch first now = LongPress.unknown := by
  have hm : movedTooFar touch first = false := by
    cases hmv : movedTooFar touch first with
    | false => rfl
    | true =>
      rcases (movedTooFar_iff touch first).mp hmv with h | h <;> omega
  simp [classifyAgainstFirst, hm, LONG_PRESS_THRESHHOLD, ht]

/-- C11: with `isTouchEnd = false`, `_determineLongPress` returns `'unknown'` for an undefined
or empty history, and for a history whose latest entry is `'unknown'` when less than 1000 ms
have passed since the first entry and the touch is within 5 of it in both axes; every record
emitted by `_handleStart` is a `trackstart` with `longPress = 'unknown'` and
`history = undefined`, and no other handler emits a `trackstart`. -/
theorem undecided_stays_unknown (clock : Nat → Int) (s : State) :
    (∀ (touch : Touch) (now : Int),
      _determineLongPress touch none now false = LongPress.unknown ∧
      _determineLongPress touch (some []) now false = LongPress.unknown) ∧
    (∀ (touch : Touch) (history : List Snapshot) (now : Int) (hne : history ≠ []),
      (history.getLast hne).longPress = some LongPress.unknown →
      now - (history.head hne).timestamp < 1000 →
      |touch.clientX - (history.head hne).touch.clientX| ≤ 5 →
      |touch.clientY - (history.head hne).touch.clientY| ≤ 5 →
      _determineLongPress touch (some history) now false = LongPress.unknown) ∧
    (∀ (event : TouchEvent), ∀ e ∈ emittedSince s (_handleStart clock s event),
      e.type = TrackEvent.trackstart ∧ e.data.longPress = some LongPress.unknown ∧
      e.data.history = none) ∧
    (∀ (event : TouchEvent), ∀ e ∈ emittedSince s (_handleMove clock s event),
      e.type = TrackEvent.trackmove) ∧
    (∀ (event : TouchEvent), ∀ e ∈ emittedSince s (_handleEnd clock s event),
      e.type = TrackEvent.trackend) ∧
    (∀ s1 : State, _handleUnpipe clock s = some s1 → ∀ e ∈ emittedSince s s1,
      e.type = TrackEvent.trackend) := by
  refine ⟨?_, ?_, ?_, ?_, ?_, ?_⟩
  · intro touch now
    exact ⟨by simp [_determineLongPress], by simp [_determineLongPress]⟩
  · intro touch history now hne hlast ht hx hy
    cases history with
    | nil => exact absurd rfl hne
    | cons first rest =>
      have hu : ¬ Decided ((first :: rest).getLast (List.cons_ne_nil first rest)).longPress := by
        rw [hlast]; exact not_decided_unknown
      rw [List.head_cons] at ht hx hy
      rw [determineLongPress_undecided touch first rest now false hu,
        classifyAgainstFirst_unknown touch first now ht hx hy]
      simp
  · intro event e he
    obtain ⟨es, h1, h2⟩ := handleStart_loop_emitted clock event event.changedTouches s
    rw [emittedSince_append s (_handleStart clock s event) es h1] at he
    have h3 : (e.type, e.data.touch, e.data.count, e.data.history, e.data.longPress) ∈
        es.map (fun e => (e.type, e.data.touch, e.data.count, e.data.history,
          e.data.longPress)) := List.mem_map_of_mem _ he
    rw [h2, List.mem_map] at h3
    obtain ⟨t, _, ht⟩ := h3
    simp only [Prod.mk.injEq] at ht
    exact ⟨ht.1.symm, ht.2.2.2.2.symm, ht.2.2.2.1.symm⟩
  · intro event e he
    obtain ⟨es, h1, h2⟩ := handleMove_loop_emitted clock event event.changedTouches s
    rw [emittedSince_append s (_handleMove clock s event) es h1] at he
    exact (h2 e he).1
  · intro event e he
    obtain ⟨touch, now, h, _, _, heq⟩ := handleEnd_emitted clock s event e he
    rw [heq]
  · intro s1 hrun e he
    obtain ⟨i, h, last, _, _, heq⟩ := handleUnpipe_emitted clock s s1 hrun e he
    rw [heq]

/-- C11, instance: a contact that started at (0, 0) at t=0 is still `'unknown'` at (3, -4) at
t=999, and the `trackstart` of `pressEvent` is `'unknown'` without history. -/
theorem undecided_stays_unknown_witness :
    _determineLongPress ⟨1, 3, -4⟩ (some wanderedHistory) 999 false = LongPress.unknown ∧
    (pressRecord.type = TrackEvent.trackstart ∧
      pressRecord.data.longPress = some LongPress.unknown ∧ pressRecord.data.history = none) :=
  ⟨(undecided_stays_unknown heldClock (TouchTracker false)).2.1 ⟨1, 3, -4⟩ wanderedHistory 999
      (by decide) (by decide) (by decide) (by decide) (by decide),
    (undecided_stays_unknown heldClock (TouchTracker false)).2.2.1 pressEvent pressRecord
      (by decide)⟩

/-- C12: after `track(snapshot)` the entry of `snapshot.touch.identifier` is a new array
holding exactly `[snapshot]`, whatever was stored before; the entries of all other identifiers
are unchanged; nothing is emitted and `selective` is unchanged. -/
theorem track_reseeds (s : State) (snapshot : Snapshot) :
    lookupHistory snapshot.touch.identifier (track s snapshot).touchHistory =
      some ⟨s.nextArrayId, [snapshot]⟩ ∧
    (∀ k : Int, k ≠ snapshot.touch.identifier →
      lookupHistory k (track s snapshot).touchHistory = lookupHistory k s.touchHistory) ∧
    (track s snapshot).eventOutput = s.eventOutput ∧
    emittedSince s (track s snapshot) = [] ∧
    (track s snapshot).selective = s.selective := by
  refine ⟨?_, ?_, rfl, ?_, rfl⟩
  · simp [track, lookupHistory_setHistory]
  · intro k hk
    have hk2 : ¬ snapshot.touch.identifier = k := fun h => hk h.symm
    simp [track, lookupHistory_setHistory, hk2]
  · simp [emittedSince, track]

/-- C12, instance: `track` of a snapshot of contact 1 on a tracker with the open contacts 1
and 2 replaces the entry of contact 1 and keeps that of contact 2. -/
theorem track_reseeds_witness :
    lookupHistory 1 (track twoContactsState originStart).touchHistory =
      some ⟨2, [originStart]⟩ ∧
    lookupHistory 2 (track twoContactsState originStart).touchHistory =
      lookupHistory 2 twoContactsState.touchHistory :=
  ⟨(track_reseeds twoContactsState originStart).1,
    (track_reseeds twoContactsState originStart).2.1 2 (by decide)⟩

/-- C13: in a non-selective tracker the loop body of `_handleStart` emits the `trackstart`
snapshot of the touch, whose `count` is the length of `event.touches`; it leaves the table
as it is when the identifier already has an entry, and otherwise stores a new array holding
exactly that snapshot, the other entries being unchanged.  A single-contact batch is one run
of the loop body. -/
theorem start_keeps_tracked (clock : Nat → Int) (event : TouchEvent) (s : State) (touch : Touch)
    (hsel : s.selective = false) :
    (handleStartTouch clock event s touch).eventOutput =
      s.eventOutput ++ [⟨TrackEvent.trackstart, startData clock event s touch⟩] ∧
    (startData clock event s touch).count = event.touches.length ∧
    (startData clock event s touch).touch = touch ∧
    (∀ h : HistoryArray, lookupHistory touch.identifier s.touchHistory = some h →
      (handleStartTouch clock event s touch).touchHistory = s.touchHistory) ∧
    (lookupHistory touch.identifier s.touchHistory = none →
      lookupHistory touch.identifier (handleStartTouch clock event s touch).touchHistory =
        some ⟨s.nextArrayId, [startData clock event s touch]⟩ ∧
      ∀ k : Int, k ≠ touch.identifier →
        lookupHistory k (handleStartTouch clock event s touch).touchHistory =
          lookupHistory k s.touchHistory) ∧
    (event.changedTouches = [touch] →
      _handleStart clock s event = handleStartTouch clock event s touch) := by
  refine ⟨?_, rfl, rfl, ?_, ?_, ?_⟩
  · unfold handleStartTouch
    simp only []
    split <;> simp [track, startData]
  · intro h hl
    simp [handleStartTouch, hsel, hl]
  · intro hl
    have hstep : handleStartTouch clock event s touch =
        track { s with dateNowCalls := s.dateNowCalls + 1
                       eventOutput := s.eventOutput ++
                         [⟨TrackEvent.trackstart, startData clock event s touch⟩] }
          (startData clock event s touch) := by
      simp [handleStartTouch, hsel, hl, startData]
    rw [hstep]
    constructor
    · simp [track, lookupHistory_setHistory, startData, _timestampTouch]
    · intro k hk
      have hk2 : ¬ touch.identifier = k := fun h => hk h.symm
      simp [track, lookupHistory_setHistory, startData, _timestampTouch, hk2]
  · intro hsingle
    exact handleStart_single clock s event touch hsingle

/-- C13, instance: a second `touchstart` of contact 1 reaches `pressedState`; the entry of
contact 1 stays as it was. -/
theorem start_keeps_tracked_witness :
    (_handleStart heldClock pressedState pressEvent).touchHistory =
      pressedState.touchHistory := by
  rw [(start_keeps_tracked heldClock pressEvent pressedState ⟨1, 0, 0⟩ rfl).2.2.2.2.2 rfl]
  exact (start_keeps_tracked heldClock pressEvent pressedState ⟨1, 0, 0⟩ rfl).2.2.2.1
    ⟨0, [originStart]⟩ (by decide)

/-! ## Claims about what the classification depends on -/

/-- C19: `_determineLongPress` reads a non-empty history only through the timestamp and the
coordinates of its first element and the `longPress` of its last element: two histories that
agree on these give the same result for the same touch, `now` and `isTouchEnd`. -/
theorem cumulative_comparison (touch : Touch) (h1 h2 : List Snapshot) (now : Int)
    (isTouchEnd : Bool) (hne1 : h1 ≠ []) (hne2 : h2 ≠ [])
    (hts : (h1.head hne1).timestamp = (h2.head hne2).timestamp)
    (hx : (h1.head hne1).touch.clientX = (h2.head hne2).touch.clientX)
    (hy : (h1.head hne1).touch.clientY = (h2.head hne2).touch.clientY)
    (hlp : (h1.getLast hne1).longPress = (h2.getLast hne2).longPress) :
    _determineLongPress touch (some h1) now isTouchEnd =
      _determineLongPress touch (some h2) now isTouchEnd := by
  cases h1 with
  | nil => exact absurd rfl hne1
  | cons f1 r1 =>
    cases h2 with
    | nil => exact absurd rfl hne2
    | cons f2 r2 =>
      rw [List.head_cons, List.head_cons] at hts hx hy
      by_cases hd : Decided ((f1 :: r1).getLast hne1).longPress
      · rcases hd with hd | hd
        · rw [determineLongPress_decided touch f1 r1 now isTouchEnd LongPress.false hd (by simp),
            determineLongPress_decided touch f2 r2 now isTouchEnd LongPress.false
              (hlp ▸ hd) (by simp)]
        · rw [determineLongPress_decided touch f1 r1 now isTouchEnd LongPress.true hd (by simp),
            determineLongPress_decided touch f2 r2 now isTouchEnd LongPress.true
              (hlp ▸ hd) (by simp)]
      · rw [determineLongPress_undecided touch f1 r1 now isTouchEnd hd,
          determineLongPress_undecided touch f2 r2 now isTouchEnd (hlp ▸ hd),
          classifyAgainstFirst_congr touch f1 f2 now hts hx hy]

/-- C19, instance: a two-sample history and a four-sample history with the same first sample
and the same latest `longPress` classify a touch at (6, 0) at t=900 alike. -/
theorem cumulative_comparison_witness :
    _determineLongPress ⟨1, 6, 0⟩ (some wanderedHistory) 900 false =
      _determineLongPress ⟨1, 6, 0⟩ (some detourHistory) 900 false :=
  cumulative_comparison ⟨1, 6, 0⟩ wanderedHistory detourHistory 900 false (by decide)
    (by decide) (by decide) (by decide) (by decide) (by decide)

/-- With `isTouchEnd = false`, a history whose latest entry is `'unknown'` gives `'false'` only
for a touch more than 5 away from the first entry in X or in Y. -/
theorem false_implies_moved (touch : Touch) (history : List Snapshot) (now : Int)
    (hne : history ≠ [])
    (hlast : (history.getLast hne).longPress = some LongPress.unknown)
    (hfalse : _determineLongPress touch (some history) now false = LongPress.false) :
    5 < |touch.clientX - (history.head hne).touch.clientX| ∨
      5 < |touch.clientY - (history.head hne).touch.clientY| := by
  cases history with
  | nil => exact absurd rfl hne
  | cons first rest =>
    have hu : ¬ Decided ((first :: rest).getLast (List.cons_ne_nil first rest)).longPress := by
      rw [hlast]; exact not_decided_unknown
    rw [determineLongPress_undecided touch first rest now false hu] at hfalse
    rw [List.head_cons, ← movedTooFar_iff]
    cases hm : movedTooFar touch first with
    | true => rfl
    | false =>
      exfalso
      unfold classifyAgainstFirst at hfalse
      simp only [hm, Bool.false_and] at hfalse
      by_cases ht : now - first.timestamp < LONG_PRESS_THRESHHOLD <;> simp [ht] at hfalse

/-- C18 fails on the code: with `isTouchEnd = false`, a history holding one `'unknown'` start
at t=0, (0,0) and a touch at (10, 0) read at t=1500, `_determineLongPress` returns `'false'`
although 1500 ms, not less than 1000, have passed since the first sample; the first
`touchmove` of a contact, delivered 1100 ms after its start, is classified the same way. -/
theorem false_after_threshold :
    (originStart.longPress = some LongPress.unknown ∧ originStart.timestamp = 0) ∧
    _determineLongPress ⟨1, 10, 0⟩ (some [originStart]) 1500 false = LongPress.false ∧
    ¬ (1500 - originStart.timestamp < LONG_PRESS_THRESHHOLD) ∧
    (emittedSince pressedState (_handleMove heldClock pressedState dragEvent)).map
        (fun e => (e.type, e.data.timestamp, e.data.longPress)) =
      [(TrackEvent.trackmove, 1100, some LongPress.false)] := by
  decide

/-! ## The loop bodies, step by step -/

theorem handleEndTouch_emit (clock : Nat → Int) (event : TouchEvent) (s : State) (touch : Touch)
    (h : HistoryArray) (hl : lookupHistory touch.identifier s.touchHistory = some h) :
    handleEndTouch clock event s touch =
      { emit (endEmitState s) TrackEvent.trackend
          (_timestampTouch (clock s.dateNowCalls) touch event.origin (some h)
            event.touches.length true) with
        touchHistory := deleteHistory touch.identifier s.touchHistory } := by
  rw [handleEndTouch_some clock event s touch h hl]
  rfl

theorem handleMoveTouch_emit (clock : Nat → Int) (event : TouchEvent) (s : State) (touch : Touch)
    (h : HistoryArray) (hl : lookupHistory touch.identifier s.touchHistory = some h) :
    handleMoveTouch clock event s touch =
      emit (moveEmitState clock event s touch h) TrackEvent.trackmove
        (_timestampTouch (clock s.dateNowCalls) touch event.origin (some h)
          event.touches.length false) := by
  rw [handleMoveTouch_some clock event s touch h hl]
  rfl

theorem handleStartTouch_output (clock : Nat → Int) (event : TouchEvent) (s : State)
    (touch : Touch) :
    (handleStartTouch clock event s touch).eventOutput =
      s.eventOutput ++ [⟨TrackEvent.trackstart, startData clock event s touch⟩] := by
  unfold handleStartTouch
  simp only []
  split <;> simp [track, startData]

theorem handleMoveTouch_output (clock : Nat → Int) (event : TouchEvent) (s : State)
    (touch : Touch) :
    ∃ es, (handleMoveTouch clock event s touch).eventOutput = s.eventOutput ++ es := by
  cases hl : lookupHistory touch.identifier s.touchHistory with
  | none => exact ⟨[], by rw [handleMoveTouch_none clock event s touch hl]; simp⟩
  | some h => exact ⟨_, by rw [handleMoveTouch_some clock event s touch h hl]⟩

theorem handleEndTouch_output (clock : Nat → Int) (event : TouchEvent) (s : State)
    (touch : Touch) :
    ∃ es, (handleEndTouch clock event s touch).eventOutput = s.eventOutput ++ es := by
  cases hl : lookupHistory touch.identifier s.touchHistory with
  | none => exact ⟨[], by rw [handleEndTouch_none clock event s touch hl]; simp⟩
  | some h => exact ⟨_, by rw [handleEndTouch_some clock event s touch h hl]⟩

theorem foldl_output (f : State → Touch → State)
    (hf : ∀ s t, ∃ es, (f s t).eventOutput = s.eventOutput ++ es) (l : List Touch) :
    ∀ s : State, ∃ es, (l.foldl f s).eventOutput = s.eventOutput ++ es := by
  induction l with
  | nil => intro s; exact ⟨[], by simp⟩
  | cons a l ih =>
    intro s
    obtain ⟨es1, h1⟩ := hf s a
    obtain ⟨es2, h2⟩ := ih (f s a)
    exact ⟨es1 ++ es2, by rw [List.foldl_cons, h2, h1, List.append_assoc]⟩

theorem foldl_inv (P : State → Prop) (f : State → Touch → State)
    (hf : ∀ s t, P s → P (f s t)) (l : List Touch) :
    ∀ s : State, P s → P (l.foldl f s) := by
  induction l with
  | nil => intro s hs; exact hs
  | cons a l ih => intro s hs; exact ih _ (hf s a hs)

/-- Every record emitted by a loop over the changed touches is emitted by one run of the loop
body, for the `k`-th touch, in the state reached after the first `k` touches. -/
theorem foldl_emitted_steps (f : State → Touch → State)
    (hf : ∀ s t, ∃ es, (f s t).eventOutput = s.eventOutput ++ es) (l : List Touch) :
    ∀ s : State, ∀ e ∈ emittedSince s (l.foldl f s), ∃ (k : Nat) (touch : Touch),
      l[k]? = some touch ∧
      e ∈ emittedSince ((l.take k).foldl f s) (f ((l.take k).foldl f s) touch) := by
  induction l with
  | nil => intro s e he; simp [emittedSince] at he
  | cons a l ih =>
    intro s e he
    obtain ⟨es1, h1⟩ := hf s a
    obtain ⟨es2, h2⟩ := foldl_output f hf l (f s a)
    have hall : ((a :: l).foldl f s).eventOutput = s.eventOutput ++ (es1 ++ es2) := by
      rw [List.foldl_cons, h2, h1, List.append_assoc]
    rw [emittedSince_append s _ _ hall] at he
    rcases List.mem_append.mp he with he | he
    · refine ⟨0, a, by simp, ?_⟩
      simp only [List.take_zero, List.foldl_nil]
      rw [emittedSince_append s _ _ h1]
      exact he
    · have he2 : e ∈ emittedSince (f s a) (l.foldl f (f s a)) := by
        rw [emittedSince_append (f s a) _ _ h2]; exact he
      obtain ⟨k, touch, hk, hmem⟩ := ih (f s a) e he2
      exact ⟨k + 1, touch, by simpa using hk, by simpa using hmem⟩

theorem emittedSince_self (s : State) : emittedSince s s = [] := by
  simp [emittedSince]

theorem handleEndTouch_lookup (clock : Nat → Int) (event : TouchEvent) (s : State)
    (touch : Touch) (k : Int) :
    lookupHistory k (handleEndTouch clock event s touch).touchHistory =
      if touch.identifier = k then none else lookupHistory k s.touchHistory := by
  cases hl : lookupHistory touch.identifier s.touchHistory with
  | none =>
    rw [handleEndTouch_none clock event s touch hl]
    split
    · next heq => rw [← heq, hl]
    · rfl
  | some h =>
    rw [handleEndTouch_some clock event s touch h hl]
    exact lookupHistory_deleteHistory k touch.identifier s.touchHistory

theorem handleEnd_loop_lookup (clock : Nat → Int) (event : TouchEvent) (l : List Touch) :
    ∀ (s : State) (k : Int),
      lookupHistory k (l.foldl (handleEndTouch clock event) s).touchHistory =
        if k ∈ l.map Touch.identifier then none else lookupHistory k s.touchHistory := by
  induction l with
  | nil => intro s k; simp
  | cons a l ih =>
    intro s k
    rw [List.foldl_cons, ih, handleEndTouch_lookup]
    by_cases h1 : k ∈ l.map Touch.identifier
    · simp [h1]
    · by_cases h2 : a.identifier = k
      · simp [h2]
      · have h3 : ¬ k = a.identifier := fun h => h2 h.symm
        simp [h1, h2, h3]

/-! ## Claims about the end of a contact and the order of emission -/

theorem handleMove_loop_touches (clock : Nat → Int) (event : TouchEvent) (l : List Touch) :
    ∀ s : State,
      (emittedSince s (l.foldl (handleMoveTouch clock event) s)).map
          (fun e => (e.type, e.data.touch)) =
        (l.filter (fun t => (lookupHistory t.identifier s.touchHistory).isSome)).map
          (fun t => (TrackEvent.trackmove, t)) := by
  induction l with
  | nil => intro s; simp [emittedSince]
  | cons a l ih =>
    intro s
    obtain ⟨es2, h2⟩ := foldl_output (handleMoveTouch clock event)
      (handleMoveTouch_output clock event) l (handleMoveTouch clock event s a)
    have ih2 := ih (handleMoveTouch clock event s a)
    rw [emittedSince_append _ _ _ h2] at ih2
    cases hl : lookupHistory a.identifier s.touchHistory with
    | none =>
      rw [handleMoveTouch_none clock event s a hl] at h2 ih2
      rw [List.foldl_cons, handleMoveTouch_none clock event s a hl,
        emittedSince_append _ _ _ h2, ih2]
      simp [List.filter_cons, hl]
    | some h =>
      have hsame : ∀ t : Touch,
          (lookupHistory t.identifier (handleMoveTouch clock event s a).touchHistory).isSome =
            (lookupHistory t.identifier s.touchHistory).isSome := by
        intro t
        rw [handleMoveTouch_some clock event s a h hl]
        simp only [lookupHistory_setHistory]
        split
        · next heq => rw [← heq, hl]; rfl
        · rfl
      have hout : ((a :: l).foldl (handleMoveTouch clock event) s).eventOutput =
          s.eventOutput ++ (⟨TrackEvent.trackmove, _timestampTouch (clock s.dateNowCalls) a
            event.origin (some h) event.touches.length false⟩ :: es2) := by
        rw [List.foldl_cons, h2, handleMoveTouch_some clock event s a h hl]
        simp
      rw [emittedSince_append _ _ _ hout, List.map_cons, ih2]
      simp [List.filter_cons, hl, hsame, _timestampTouch]

theorem handleEnd_loop_touches (clock : Nat → Int) (event : TouchEvent) (l : List Touch) :
    ∀ s : State,
      (emittedSince s (l.foldl (handleEndTouch clock event) s)).map
          (fun e => (e.type, e.data.touch)) =
        (endTracked s.touchHistory l).map (fun t => (TrackEvent.trackend, t)) := by
  induction l with
  | nil => intro s; simp [emittedSince, endTracked]
  | cons a l ih =>
    intro s
    obtain ⟨es2, h2⟩ := foldl_output (handleEndTouch clock event)
      (handleEndTouch_output clock event) l (handleEndTouch clock event s a)
    have ih2 := ih (handleEndTouch clock event s a)
    rw [emittedSince_append _ _ _ h2] at ih2
    cases hl : lookupHistory a.identifier s.touchHistory with
    | none =>
      rw [handleEndTouch_none clock event s a hl] at h2 ih2
      rw [List.foldl_cons, handleEndTouch_none clock event s a hl,
        emittedSince_append _ _ _ h2, ih2]
      simp [endTracked, hl]
    | some h =>
      have hout : ((a :: l).foldl (handleEndTouch clock event) s).eventOutput =
          s.eventOutput ++ (⟨TrackEvent.trackend, _timestampTouch (clock s.dateNowCalls) a
            event.origin (some h) event.touches.length true⟩ :: es2) := by
        rw [List.foldl_cons, h2, handleEndTouch_some clock event s a h hl]
        simp
      rw [emittedSince_append _ _ _ hout, List.map_cons, ih2,
        handleEndTouch_some clock event s a h hl]
      simp [endTracked, hl, _timestampTouch]

theorem endTracked_sublist (l : List Touch) : ∀ t : Table, (endTracked t l).Sublist l := by
  induction l with
  | nil => intro t; simp [endTracked]
  | cons a l ih =>
    intro t
    unfold endTracked
    split
    · exact List.Sublist.cons₂ _ (ih _)
    · exact List.Sublist.cons _ (ih _)

/-- C15: the records of a `touchstart` batch are the `trackstart` records of its changed
touches, one each, in order; the records of a `touchmove` batch are the `trackmove` records of
the changed touches that have an entry, in order; the records of a `touchend` batch are the
`trackend` records of the changed touches that have an entry when the loop reaches them, in
order; each record carries the touch it was built from. -/
theorem emission_order (clock : Nat → Int) (s : State) (event : TouchEvent) :
    (emittedSince s (_handleStart clock s event)).map (fun e => (e.type, e.data.touch)) =
      event.changedTouches.map (fun t => (TrackEvent.trackstart, t)) ∧
    (emittedSince s (_handleMove clock s event)).map (fun e => (e.type, e.data.touch)) =
      (event.changedTouches.filter
        (fun t => (lookupHistory t.identifier s.touchHistory).isSome)).map
          (fun t => (TrackEvent.trackmove, t)) ∧
    (emittedSince s (_handleEnd clock s event)).map (fun e => (e.type, e.data.touch)) =
      (endTracked s.touchHistory event.changedTouches).map
        (fun t => (TrackEvent.trackend, t)) ∧
    (event.changedTouches.filter
      (fun t => (lookupHistory t.identifier s.touchHistory).isSome)).Sublist
        event.changedTouches ∧
    (endTracked s.touchHistory event.changedTouches).Sublist event.changedTouches := by
  refine ⟨?_, handleMove_loop_touches clock event event.changedTouches s,
    handleEnd_loop_touches clock event event.changedTouches s, List.filter_sublist _,
    endTracked_sublist _ _⟩
  obtain ⟨es, h1, h2⟩ := handleStart_loop_emitted clock event event.changedTouches s
  rw [emittedSince_append s (_handleStart clock s event) es h1]
  have h3 := congrArg (List.map (fun q : TrackEvent × Touch × Nat × Option Nat ×
    Option LongPress => (q.1, q.2.1))) h2
  simpa [List.map_map, Function.comp_def] using h3

theorem endTracked_mem (touch : Touch) (l : List Touch) :
    ∀ t : Table, touch ∈ l → (lookupHistory touch.identifier t).isSome = true →
      ∃ t1 ∈ endTracked t l, t1.identifier = touch.identifier := by
  induction l with
  | nil => intro t hm _; simp at hm
  | cons a l ih =>
    intro t hm hl
    by_cases hid : a.identifier = touch.identifier
    · refine ⟨a, ?_, hid⟩
      unfold endTracked
      rw [hid, hl]
      simp
    · have hm2 : touch ∈ l := by
        rcases List.mem_cons.mp hm with hm | hm
        · exact absurd (by rw [hm]) hid
        · exact hm
      unfold endTracked
      split
      · obtain ⟨t1, ht1, hid1⟩ := ih (deleteHistory a.identifier t) hm2
          (by rw [lookupHistory_deleteHistory]; simp [hid, hl])
        exact ⟨t1, List.mem_cons_of_mem _ ht1, hid1⟩
      · exact ih t hm2 hl

theorem handleEnd_emits_tracked (clock : Nat → Int) (s : State) (event : TouchEvent)
    (touch : Touch) (hm : touch ∈ event.changedTouches)
    (hl : (lookupHistory touch.identifier s.touchHistory).isSome = true) :
    ∃ e ∈ emittedSince s (_handleEnd clock s event),
      e.data.touch.identifier = touch.identifier := by
  obtain ⟨t1, ht1, hid1⟩ := endTracked_mem touch event.changedTouches s.touchHistory hm hl
  have hmem : (TrackEvent.trackend, t1) ∈
      (endTracked s.touchHistory event.changedTouches).map
        (fun t => (TrackEvent.trackend, t)) := List.mem_map_of_mem _ ht1
  have hemit : (emittedSince s (_handleEnd clock s event)).map
      (fun e => (e.type, e.data.touch)) =
      (endTracked s.touchHistory event.changedTouches).map
        (fun t => (TrackEvent.trackend, t)) :=
    handleEnd_loop_touches clock event event.changedTouches s
  rw [← hemit] at hmem
  obtain ⟨e, he, heq⟩ := List.mem_map.mp hmem
  simp only [Prod.mk.injEq] at heq
  exact ⟨e, he, by rw [heq.2]; exact hid1⟩

/-- C14: every record emitted by `_handleEnd` belongs to a changed touch whose identifier has
an entry; its `history` refers to the array stored for the identifier before the handler ran,
and that array is stored unchanged when `emit` is called (the terminal snapshot is never
pushed); every changed touch whose identifier has an entry gets such a record; after the
handler no identifier of the batch has an entry, and the entries of all other identifiers are
unchanged. -/
theorem end_closes_contact (clock : Nat → Int) (s : State) (event : TouchEvent) :
    (∀ e ∈ emittedSince s (_handleEnd clock s event),
      ∃ (k : Nat) (touch : Touch) (h : HistoryArray) (s1 : State),
        event.changedTouches[k]? = some touch ∧
        s1 = (event.changedTouches.take k).foldl (handleEndTouch clock event) s ∧
        lookupHistory touch.identifier s.touchHistory = some h ∧
        lookupHistory touch.identifier (endEmitState s1).touchHistory = some h ∧
        e = ⟨TrackEvent.trackend, _timestampTouch (clock s1.dateNowCalls) touch event.origin
          (some h) event.touches.length true⟩ ∧
        e.data.history = some h.id ∧
        handleEndTouch clock event s1 touch =
          { emit (endEmitState s1) TrackEvent.trackend e.data with
            touchHistory := deleteHistory touch.identifier s1.touchHistory }) ∧
    (∀ touch ∈ event.changedTouches,
      (lookupHistory touch.identifier s.touchHistory).isSome = true →
      ∃ e ∈ emittedSince s (_handleEnd clock s event),
        e.data.touch.identifier = touch.identifier) ∧
    (∀ k : Int, lookupHistory k (_handleEnd clock s event).touchHistory =
      if k ∈ event.changedTouches.map Touch.identifier then none
      else lookupHistory k s.touchHistory) := by
  refine ⟨?_, fun touch hm hl => handleEnd_emits_tracked clock s event touch hm hl, ?_⟩
  · intro e he
    obtain ⟨k, touch, hk, hmem⟩ := foldl_emitted_steps (handleEndTouch clock event)
      (handleEndTouch_output clock event) event.changedTouches s e he
    cases hl : lookupHistory touch.identifier
        ((event.changedTouches.take k).foldl (handleEndTouch clock event) s).touchHistory with
    | none =>
      rw [handleEndTouch_none clock event _ touch hl, emittedSince_self] at hmem
      simp at hmem
    | some h =>
      have hl0 : lookupHistory touch.identifier s.touchHistory = some h := by
        rw [handleEnd_loop_lookup] at hl
        split at hl
        · cases hl
        · exact hl
      have hstep := handleEndTouch_emit clock event _ touch h hl
      rw [hstep] at hmem
      have he2 : e = ⟨TrackEvent.trackend, _timestampTouch
          (clock ((event.changedTouches.take k).foldl (handleEndTouch clock event)
            s).dateNowCalls) touch event.origin (some h) event.touches.length true⟩ := by
        simpa [emittedSince, emit, endEmitState] using hmem
      refine ⟨k, touch, h, _, hk, rfl, hl0, hl, he2, ?_, ?_⟩
      · rw [he2]; rfl
      · rw [he2]; exact hstep
  · intro k
    exact handleEnd_loop_lookup clock event event.changedTouches s k

/-- C14, instance: contact 1 of the two open contacts ends; its `trackend` refers to array 0,
contact 1 has no entry afterwards and contact 2 keeps its entry. -/
theorem end_closes_contact_witness :
    lookupHistory 1 (_handleEnd heldClock twoContactsState releaseEvent).touchHistory = none ∧
    lookupHistory 2 (_handleEnd heldClock twoContactsState releaseEvent).touchHistory =
      lookupHistory 2 twoContactsState.touchHistory :=
  ⟨((end_closes_contact heldClock twoContactsState releaseEvent).2.2 1).trans (by decide),
    ((end_closes_contact heldClock twoContactsState releaseEvent).2.2 2).trans (by decide)⟩

/-- C15, instance: a `touchmove` batch of contacts 2, 3 and 1 reaches a tracker that tracks 1
and 2; it emits the `trackmove` of contact 2 and then that of contact 1. -/
theorem emission_order_witness :
    (emittedSince twoContactsState (_handleMove heldClock twoContactsState mixedEvent)).map
        (fun e => (e.type, e.data.touch)) =
      [(TrackEvent.trackmove, ⟨2, 11, 11⟩), (TrackEvent.trackmove, ⟨1, 1, 0⟩)] :=
  ((emission_order heldClock twoContactsState mixedEvent).2.1).trans (by decide)

/-! ## Invariants of the reachable states -/

/-- An invariant kept by every allowed operation that completes is kept by every run of
allowed operations, and the run completes. -/
theorem run_preserves (clock : Nat → Int) (P : State → Prop) (allowed : Op → Prop)
    (hP : ∀ (s : State) (op : Op) (s1 : State), TableInv s.touchHistory → P s → allowed op →
      step clock s op = some s1 → P s1)
    (ops : List Op) :
    ∀ s : State, TableInv s.touchHistory → P s → (∀ op ∈ ops, allowed op) →
      ∃ s1 : State, run clock s ops = some s1 ∧ TableInv s1.touchHistory ∧ P s1 := by
  induction ops with
  | nil => intro s hinv hp _; exact ⟨s, rfl, hinv, hp⟩
  | cons op ops ih =>
    intro s hinv hp hall
    obtain ⟨s1, h1, hinv1⟩ := step_inv clock s hinv op
    have hp1 := hP s op s1 hinv hp (hall op (List.mem_cons_self _ _)) h1
    obtain ⟨s2, h2, hinv2, hp2⟩ := ih s1 hinv1 hp1
      (fun o ho => hall o (List.mem_cons_of_mem _ ho))
    exact ⟨s2, by simp [run, h1, h2], hinv2, hp2⟩

theorem handleUnpipe_empties (clock : Nat → Int) (s s1 : State)
    (hinv : TableInv s.touchHistory) (hrun : _handleUnpipe clock s = some s1) :
    s1.touchHistory = [] := by
  obtain ⟨s2, _, _, hrun2, hnil, _⟩ := handleUnpipe_complete clock s hinv.1
    (fun p hp => (hinv.2 p hp).1)
  rw [hrun] at hrun2
  cases hrun2
  exact hnil

theorem startSeeded_startTouch (clock : Nat → Int) (event : TouchEvent) (s : State)
    (touch : Touch) (hs : StartSeeded s) :
    StartSeeded (handleStartTouch clock event s touch) := by
  have hout := handleStartTouch_output clock event s touch
  have htab : (handleStartTouch clock event s touch).touchHistory = s.touchHistory ∨
      (handleStartTouch clock event s touch).touchHistory =
        setHistory touch.identifier ⟨s.nextArrayId, [startData clock event s touch]⟩
          s.touchHistory := by
    unfold handleStartTouch
    simp only []
    split
    · exact Or.inr (by simp [track, startData, _timestampTouch])
    · exact Or.inl rfl
  intro p hp
  have hold : p ∈ s.touchHistory → ∃ (first : Snapshot) (rest : List Snapshot),
      p.2.elems = first :: rest ∧ first.longPress = some LongPress.unknown ∧
      first.history = none ∧
      (⟨TrackEvent.trackstart, first⟩ : Emission) ∈
        (handleStartTouch clock event s touch).eventOutput ∧
      ∀ x ∈ p.2.elems, x.touch.identifier = p.1 := by
    intro hp0
    obtain ⟨first, rest, h1, h2, h3, h4, h5⟩ := hs p hp0
    exact ⟨first, rest, h1, h2, h3, by rw [hout]; exact List.mem_append_left _ h4, h5⟩
  rcases htab with htab | htab
  · rw [htab] at hp
    exact hold hp
  · rw [htab] at hp
    rcases mem_setHistory _ _ _ p hp with hp | hp
    · exact hold hp
    · subst hp
      refine ⟨startData clock event s touch, [], rfl, ?_, rfl, ?_, ?_⟩
      · simp [startData, _timestampTouch, determineLongPress_no_history]
      · rw [hout]; simp
      · intro x hx
        simp only [List.mem_singleton] at hx
        subst hx
        rfl

theorem startSeeded_moveTouch (clock : Nat → Int) (event : TouchEvent) (s : State)
    (touch : Touch) (hs : StartSeeded s) :
    StartSeeded (handleMoveTouch clock event s touch) := by
  cases hl : lookupHistory touch.identifier s.touchHistory with
  | none => rw [handleMoveTouch_none clock event s touch hl]; exact hs
  | some h =>
    rw [handleMoveTouch_some clock event s touch h hl]
    intro p hp
    rcases mem_setHistory _ _ _ p hp with hp | hp
    · obtain ⟨first, rest, h1, h2, h3, h4, h5⟩ := hs p hp
      exact ⟨first, rest, h1, h2, h3, List.mem_append_left _ h4, h5⟩
    · subst hp
      obtain ⟨first, rest, h1, h2, h3, h4, h5⟩ := hs _ (lookupHistory_mem _ h _ hl)
      refine ⟨first, rest ++ [_timestampTouch (clock s.dateNowCalls) touch event.origin
        (some h) event.touches.length false], ?_, h2, h3, List.mem_append_left _ h4, ?_⟩
      · show h.elems ++ _ = _
        rw [show h.elems = first :: rest from h1]
        rfl
      · intro x hx
        rcases List.mem_append.mp hx with hx | hx
        · exact h5 x hx
        · simp only [List.mem_singleton] at hx
          subst hx
          rfl

theorem startSeeded_endTouch (clock : Nat → Int) (event : TouchEvent) (s : State)
    (touch : Touch) (hs : StartSeeded s) :
    StartSeeded (handleEndTouch clock event s touch) := by
  cases hl : lookupHistory touch.identifier s.touchHistory with
  | none => rw [handleEndTouch_none clock event s touch hl]; exact hs
  | some h =>
    rw [handleEndTouch_some clock event s touch h hl]
    intro p hp
    obtain ⟨first, rest, h1, h2, h3, h4, h5⟩ := hs p (mem_deleteHistory _ _ p hp)
    exact ⟨first, rest, h1, h2, h3, List.mem_append_left _ h4, h5⟩

theorem step_seeded (clock : Nat → Int) (s : State) (op : Op) (s1 : State)
    (hinv : TableInv s.touchHistory) (hs : StartSeeded s) (hop : isNotification op = true)
    (hstep : step clock s op = some s1) : StartSeeded s1 := by
  cases op with
  | touchstart event =>
    cases hstep
    exact foldl_inv StartSeeded _ (fun s t h => startSeeded_startTouch clock event s t h) _ s hs
  | touchmove event =>
    cases hstep
    exact foldl_inv StartSeeded _ (fun s t h => startSeeded_moveTouch clock event s t h) _ s hs
  | touchend event =>
    cases hstep
    exact foldl_inv StartSeeded _ (fun s t h => startSeeded_endTouch clock event s t h) _ s hs
  | touchcancel event =>
    cases hstep
    exact foldl_inv StartSeeded _ (fun s t h => startSeeded_endTouch clock event s t h) _ s hs
  | unpipe =>
    intro p hp
    rw [handleUnpipe_empties clock s s1 hinv hstep] at hp
    simp at hp
  | track data => simp [isNotification] at hop

/-- C16: a fresh tracker that receives `touchstart`, `touchmove`, `touchend`/`touchcancel`
and `unpipe` notifications only completes every run, and in the state it reaches every
identifier of the table maps to a non-empty array whose first element was emitted as
`trackstart`, is `'unknown'` and has no history, and whose elements all carry that
identifier. -/
theorem history_table_invariant (clock : Nat → Int) (selective : Bool) (ops : List Op)
    (hops : ∀ op ∈ ops, isNotification op = true) :
    ∃ s : State, run clock (TouchTracker selective) ops = some s ∧
      ∀ (id : Int) (h : HistoryArray), lookupHistory id s.touchHistory = some h →
        ∃ (first : Snapshot) (rest : List Snapshot),
          h.elems = first :: rest ∧ first.longPress = some LongPress.unknown ∧
          first.history = none ∧
          (⟨TrackEvent.trackstart, first⟩ : Emission) ∈ s.eventOutput ∧
          ∀ x ∈ h.elems, x.touch.identifier = id := by
  obtain ⟨s, hrun, _, hseed⟩ := run_preserves clock StartSeeded
    (fun op => isNotification op = true) (step_seeded clock) ops (TouchTracker selective)
    ⟨List.nodup_nil, by simp [TouchTracker]⟩ (by intro p hp; simp [TouchTracker] at hp) hops
  exact ⟨s, hrun, fun id h hl => hseed (id, h) (lookupHistory_mem id h _ hl)⟩

/-- C16, instance: contacts 1 and 2 start, contact 1 moves twice and contact 2 ends; the
array left for contact 1 starts with its `trackstart` snapshot. -/
theorem history_table_invariant_witness :
    (∃ s : State, run heldClock (TouchTracker false) sessionOps = some s ∧
      ∀ (id : Int) (h : HistoryArray), lookupHistory id s.touchHistory = some h →
        ∃ (first : Snapshot) (rest : List Snapshot),
          h.elems = first :: rest ∧ first.longPress = some LongPress.unknown ∧
          first.history = none ∧
          (⟨TrackEvent.trackstart, first⟩ : Emission) ∈ s.eventOutput ∧
          ∀ x ∈ h.elems, x.touch.identifier = id) ∧
    (run heldClock (TouchTracker false) sessionOps).map (fun s => s.touchHistory.map
        (fun p => (p.1, p.2.elems.map (fun x => (x.touch.identifier, x.longPress))))) =
      some [(1, [(1, some LongPress.unknown), (1, some LongPress.true),
        (1, some LongPress.true)])] :=
  ⟨history_table_invariant heldClock false sessionOps (by decide), by decide⟩

/-- Every record emitted by `_handleMove` is the `trackmove` snapshot of the `k`-th changed
touch, built from the array stored for its identifier after the first `k` touches. -/
theorem handleMove_steps (clock : Nat → Int) (s : State) (event : TouchEvent) (e : Emission)
    (he : e ∈ emittedSince s (_handleMove clock s event)) :
    ∃ (k : Nat) (touch : Touch) (h : HistoryArray),
      event.changedTouches[k]? = some touch ∧
      lookupHistory touch.identifier
        ((event.changedTouches.take k).foldl (handleMoveTouch clock event) s).touchHistory =
          some h ∧
      e = ⟨TrackEvent.trackmove, _timestampTouch
        (clock ((event.changedTouches.take k).foldl (handleMoveTouch clock event)
          s).dateNowCalls) touch event.origin (some h) event.touches.length false⟩ := by
  obtain ⟨k, touch, hk, hmem⟩ := foldl_emitted_steps (handleMoveTouch clock event)
    (handleMoveTouch_output clock event) event.changedTouches s e he
  cases hl : lookupHistory touch.identifier
      ((event.changedTouches.take k).foldl (handleMoveTouch clock event) s).touchHistory with
  | none =>
    rw [handleMoveTouch_none clock event _ touch hl, emittedSince_self] at hmem
    simp at hmem
  | some h =>
    rw [handleMoveTouch_some clock event _ touch h hl] at hmem
    exact ⟨k, touch, h, hk, hl, by simpa [emittedSince] using hmem⟩

/-- Every record emitted by `_handleEnd` is the `trackend` snapshot of the `k`-th changed
touch, built from the array stored for its identifier after the first `k` touches. -/
theorem handleEnd_steps (clock : Nat → Int) (s : State) (event : TouchEvent) (e : Emission)
    (he : e ∈ emittedSince s (_handleEnd clock s event)) :
    ∃ (k : Nat) (touch : Touch) (h : HistoryArray),
      event.changedTouches[k]? = some touch ∧
      lookupHistory touch.identifier
        ((event.changedTouches.take k).foldl (handleEndTouch clock event) s).touchHistory =
          some h ∧
      e = ⟨TrackEvent.trackend, _timestampTouch
        (clock ((event.changedTouches.take k).foldl (handleEndTouch clock event)
          s).dateNowCalls) touch event.origin (some h) event.touches.length true⟩ := by
  obtain ⟨k, touch, hk, hmem⟩ := foldl_emitted_steps (handleEndTouch clock event)
    (handleEndTouch_output clock event) event.changedTouches s e he
  cases hl : lookupHistory touch.identifier
      ((event.changedTouches.take k).foldl (handleEndTouch clock event) s).touchHistory with
  | none =>
    rw [handleEndTouch_none clock event _ touch hl, emittedSince_self] at hmem
    simp at hmem
  | some h =>
    rw [handleEndTouch_some clock event _ touch h hl] at hmem
    exact ⟨k, touch, h, hk, hl, by simpa [emittedSince] using hmem⟩

theorem handleStartTouch_calls (clock : Nat → Int) (event : TouchEvent) (s : State)
    (touch : Touch) :
    (handleStartTouch clock event s touch).dateNowCalls = s.dateNowCalls + 1 := by
  unfold handleStartTouch
  simp only []
  split <;> simp [track]

theorem timed_startTouch (clock : Nat → Int) (event : TouchEvent) (s : State) (touch : Touch)
    (hs : Timed clock s) : Timed clock (handleStartTouch clock event s touch) := by
  have hcalls := handleStartTouch_calls clock event s touch
  have htab : (handleStartTouch clock event s touch).touchHistory = s.touchHistory ∨
      (handleStartTouch clock event s touch).touchHistory =
        setHistory touch.identifier ⟨s.nextArrayId, [startData clock event s touch]⟩
          s.touchHistory := by
    unfold handleStartTouch
    simp only []
    split
    · exact Or.inr (by simp [track, startData, _timestampTouch])
    · exact Or.inl rfl
  have hold : ∀ p ∈ s.touchHistory,
      p.2.elems.Pairwise (fun a b => a.timestamp ≤ b.timestamp) ∧
      ∀ x ∈ p.2.elems, ∃ k : Nat,
        k < (handleStartTouch clock event s touch).dateNowCalls ∧ x.timestamp = clock k := by
    intro p hp
    refine ⟨(hs p hp).1, ?_⟩
    intro x hx
    obtain ⟨k, hk, hx2⟩ := (hs p hp).2 x hx
    exact ⟨k, by rw [hcalls]; omega, hx2⟩
  intro p hp
  rcases htab with htab | htab
  · rw [htab] at hp
    exact hold p hp
  · rw [htab] at hp
    rcases mem_setHistory _ _ _ p hp with hp | hp
    · exact hold p hp
    · subst hp
      refine ⟨List.pairwise_singleton _ _, ?_⟩
      intro x hx
      simp only [List.mem_singleton] at hx
      subst hx
      exact ⟨s.dateNowCalls, by rw [hcalls]; omega, rfl⟩

theorem timed_moveTouch (clock : Nat → Int) (hmono : Monotone clock) (event : TouchEvent)
    (s : State) (touch : Touch) (hs : Timed clock s) :
    Timed clock (handleMoveTouch clock event s touch) := by
  cases hl : lookupHistory touch.identifier s.touchHistory with
  | none => rw [handleMoveTouch_none clock event s touch hl]; exact hs
  | some h =>
    rw [handleMoveTouch_some clock event s touch h hl]
    intro p hp
    rcases mem_setHistory _ _ _ p hp with hp | hp
    · refine ⟨(hs p hp).1, ?_⟩
      intro x hx
      obtain ⟨k, hk, hx2⟩ := (hs p hp).2 x hx
      exact ⟨k, Nat.lt_succ_of_lt hk, hx2⟩
    · subst hp
      have hh := hs _ (lookupHistory_mem _ h _ hl)
      constructor
      · show (h.elems ++ [_]).Pairwise _
        rw [List.pairwise_append]
        refine ⟨hh.1, List.pairwise_singleton _ _, ?_⟩
        intro a ha b hb
        rw [List.mem_singleton.mp hb]
        obtain ⟨k, hk, hx2⟩ := hh.2 a ha
        rw [hx2]
        exact hmono (le_of_lt hk)
      · intro x hx
        rcases List.mem_append.mp hx with hx | hx
        · obtain ⟨k, hk, hx2⟩ := hh.2 x hx
          exact ⟨k, Nat.lt_succ_of_lt hk, hx2⟩
        · simp only [List.mem_singleton] at hx
          subst hx
          exact ⟨s.dateNowCalls, Nat.lt_succ_self _, rfl⟩

theorem timed_endTouch (clock : Nat → Int) (event : TouchEvent) (s : State) (touch : Touch)
    (hs : Timed clock s) : Timed clock (handleEndTouch clock event s touch) := by
  cases hl : lookupHistory touch.identifier s.touchHistory with
  | none => rw [handleEndTouch_none clock event s touch hl]; exact hs
  | some h =>
    rw [handleEndTouch_some clock event s touch h hl]
    intro p hp
    have hp0 := mem_deleteHistory _ _ p hp
    refine ⟨(hs p hp0).1, ?_⟩
    intro x hx
    obtain ⟨k, hk, hx2⟩ := (hs p hp0).2 x hx
    exact ⟨k, Nat.lt_succ_of_lt hk, hx2⟩

theorem step_timed (clock : Nat → Int) (hmono : Monotone clock) (s : State) (op : Op)
    (s1 : State) (hinv : TableInv s.touchHistory) (hs : Timed clock s)
    (hop : isNotification op = true) (hstep : step clock s op = some s1) : Timed clock s1 := by
  cases op with
  | touchstart event =>
    cases hstep
    exact foldl_inv (Timed clock) _ (fun s t h => timed_startTouch clock event s t h) _ s hs
  | touchmove event =>
    cases hstep
    exact foldl_inv (Timed clock) _ (fun s t h => timed_moveTouch clock hmono event s t h) _ s hs
  | touchend event =>
    cases hstep
    exact foldl_inv (Timed clock) _ (fun s t h => timed_endTouch clock event s t h) _ s hs
  | touchcancel event =>
    cases hstep
    exact foldl_inv (Timed clock) _ (fun s t h => timed_endTouch clock event s t h) _ s hs
  | unpipe =>
    intro p hp
    rw [handleUnpipe_empties clock s s1 hinv hstep] at hp
    simp at hp
  | track data => simp [isNotification] at hop

/-- The time of a snapshot built in a timed state is not before any element of the array it
is built from. -/
theorem timed_le_now (clock : Nat → Int) (hmono : Monotone clock) (s : State)
    (hs : Timed clock s) (id : Int) (h : HistoryArray)
    (hl : lookupHistory id s.touchHistory = some h) :
    ∀ x ∈ h.elems, x.timestamp ≤ clock s.dateNowCalls := by
  intro x hx
  obtain ⟨k, hk, hx2⟩ := (hs _ (lookupHistory_mem id h _ hl)).2 x hx
  rw [hx2]
  exact hmono (le_of_lt hk)

/-- C20: when the clock is non-decreasing in the number of calls, a fresh tracker that
receives `touchstart`, `touchmove`, `touchend`/`touchcancel` and `unpipe` notifications only
completes every run; in the state it reaches every stored array is ordered by time, and every
`trackmove` or `trackend` record emitted next is not older than any element of the array it
is built from, so that the elapsed time since the first element is not negative. -/
theorem time_ordered (clock : Nat → Int) (hmono : Monotone clock) (selective : Bool)
    (ops : List Op) (hops : ∀ op ∈ ops, isNotification op = true) :
    ∃ s : State, run clock (TouchTracker selective) ops = some s ∧
      (∀ (id : Int) (h : HistoryArray), lookupHistory id s.touchHistory = some h →
        h.elems.Pairwise (fun a b => a.timestamp ≤ b.timestamp)) ∧
      (∀ (event : TouchEvent), ∀ e ∈ emittedSince s (_handleMove clock s event),
        ∃ (k : Nat) (touch : Touch) (h : HistoryArray),
          event.changedTouches[k]? = some touch ∧
          lookupHistory touch.identifier ((event.changedTouches.take k).foldl
            (handleMoveTouch clock event) s).touchHistory = some h ∧
          e = ⟨TrackEvent.trackmove, _timestampTouch
            (clock ((event.changedTouches.take k).foldl (handleMoveTouch clock event)
              s).dateNowCalls) touch event.origin (some h) event.touches.length false⟩ ∧
          (∀ x ∈ h.elems, x.timestamp ≤ e.data.timestamp) ∧
          (∀ first : Snapshot, h.elems.head? = some first →
            0 ≤ e.data.timestamp - first.timestamp)) ∧
      (∀ (event : TouchEvent), ∀ e ∈ emittedSince s (_handleEnd clock s event),
        ∃ (k : Nat) (touch : Touch) (h : HistoryArray),
          event.changedTouches[k]? = some touch ∧
          lookupHistory touch.identifier ((event.changedTouches.take k).foldl
            (handleEndTouch clock event) s).touchHistory = some h ∧
          e = ⟨TrackEvent.trackend, _timestampTouch
            (clock ((event.changedTouches.take k).foldl (handleEndTouch clock event)
              s).dateNowCalls) touch event.origin (some h) event.touches.length true⟩ ∧
          (∀ x ∈ h.elems, x.timestamp ≤ e.data.timestamp) ∧
          (∀ first : Snapshot, h.elems.head? = some first →
            0 ≤ e.data.timestamp - first.timestamp)) ∧
      (∀ s1 : State, _handleUnpipe clock s = some s1 → ∀ e ∈ emittedSince s s1,
        ∃ (i : Int) (h : HistoryArray) (last : Snapshot),
          lookupHistory i s.touchHistory = some h ∧ h.elems.getLast? = some last ∧
          e = ⟨TrackEvent.trackend, unpipeData (clock s.dateNowCalls) h last⟩ ∧
          (∀ x ∈ h.elems, x.timestamp ≤ e.data.timestamp) ∧
          (∀ first : Snapshot, h.elems.head? = some first →
            0 ≤ e.data.timestamp - first.timestamp)) := by
  obtain ⟨s, hrun, _, htimed⟩ := run_preserves clock (Timed clock)
    (fun op => isNotification op = true) (step_timed clock hmono) ops (TouchTracker selective)
    ⟨List.nodup_nil, by simp [TouchTracker]⟩ (by intro p hp; simp [TouchTracker] at hp) hops
  have hfirst : ∀ (h : HistoryArray) (now : Int), (∀ x ∈ h.elems, x.timestamp ≤ now) →
      ∀ first : Snapshot, h.elems.head? = some first → 0 ≤ now - first.timestamp := by
    intro h now hle first hf
    have := hle first (List.mem_of_mem_head? hf)
    omega
  refine ⟨s, hrun, ?_, ?_, ?_, ?_⟩
  · intro id h hl
    exact (htimed _ (lookupHistory_mem id h _ hl)).1
  · intro event e he
    obtain ⟨k, touch, h, hk, hl, heq⟩ := handleMove_steps clock s event e he
    have ht := foldl_inv (Timed clock) _
      (fun s t h => timed_moveTouch clock hmono event s t h) (event.changedTouches.take k) s
      htimed
    have hle := timed_le_now clock hmono _ ht touch.identifier h hl
    refine ⟨k, touch, h, hk, hl, heq, ?_, ?_⟩
    · rw [heq]; exact hle
    · rw [heq]; exact hfirst h _ hle
  · intro event e he
    obtain ⟨k, touch, h, hk, hl, heq⟩ := handleEnd_steps clock s event e he
    have ht := foldl_inv (Timed clock) _
      (fun s t h => timed_endTouch clock event s t h) (event.changedTouches.take k) s htimed
    have hle := timed_le_now clock hmono _ ht touch.identifier h hl
    refine ⟨k, touch, h, hk, hl, heq, ?_, ?_⟩
    · rw [heq]; exact hle
    · rw [heq]; exact hfirst h _ hle
  · intro s1 hun e he
    obtain ⟨i, h, last, hl, hlast, heq⟩ := handleUnpipe_emitted clock s s1 hun e he
    have hle := timed_le_now clock hmono s htimed i h hl
    refine ⟨i, h, last, hl, hlast, heq, ?_, ?_⟩
    · rw [heq]; exact hle
    · rw [heq]; exact hfirst h _ hle

/-- C20, instance: with readings 0, 1100, 2200, ... the array left for contact 1 by
`sessionOps` holds the times 0, 2200 and 3300. -/
theorem time_ordered_witness :
    (∃ s : State, run heldClock (TouchTracker false) sessionOps = some s ∧
      ∀ (id : Int) (h : HistoryArray), lookupHistory id s.touchHistory = some h →
        h.elems.Pairwise (fun a b => a.timestamp ≤ b.timestamp)) ∧
    (run heldClock (TouchTracker false) sessionOps).map (fun s => s.touchHistory.map
        (fun p => (p.1, p.2.elems.map Snapshot.timestamp))) = some [(1, [0, 2200, 3300])] :=
  ⟨(time_ordered heldClock (fun a b hab => by unfold heldClock; omega) false sessionOps
      (by decide)).imp (fun _ h => ⟨h.1, h.2.1⟩), by decide⟩

/-! ## What the `history` field refers to -/

theorem derefHistory_of_lookup (t : Table) (hd : (t.map (fun p => p.2.id)).Nodup) (k : Int)
    (h : HistoryArray) (hl : lookupHistory k t = some h) :
    derefHistory t (some h.id) = some h.elems := by
  induction t with
  | nil => simp [lookupHistory] at hl
  | cons p t ih =>
    obtain ⟨k1, h1⟩ := p
    by_cases hk : k1 = k
    · simp only [lookupHistory, hk, if_true, Option.some.injEq] at hl
      subst hl
      simp [derefHistory]
    · simp only [lookupHistory, hk, if_false] at hl
      have hmem : h.id ∈ t.map (fun p => p.2.id) :=
        List.mem_map.mpr ⟨(k, h), lookupHistory_mem k h t hl, rfl⟩
      have hnd := List.nodup_cons.mp hd
      have hne : ¬ h1.id = h.id := fun heq => hnd.1 (by show h1.id ∈ _; rw [heq]; exact hmem)
      have := ih hnd.2 hl
      simp only [derefHistory, List.find?_cons, hne, decide_False] at this ⊢
      exact this

theorem ids_setHistory_same (t : Table) (k : Int) (h h1 : HistoryArray)
    (hl : lookupHistory k t = some h) (hid : h1.id = h.id) :
    (setHistory k h1 t).map (fun p => p.2.id) = t.map (fun p => p.2.id) := by
  induction t with
  | nil => simp [lookupHistory] at hl
  | cons p t ih =>
    obtain ⟨k1, h2⟩ := p
    by_cases hk : k1 = k
    · simp only [lookupHistory, hk, if_true, Option.some.injEq] at hl
      subst hl
      simp [setHistory, hk, hid]
    · simp only [lookupHistory, hk, if_false] at hl
      simp [setHistory, hk, ih hl]

theorem ids_deleteHistory (k : Int) (t : Table) :
    ((deleteHistory k t).map (fun p => p.2.id)).Sublist (t.map (fun p => p.2.id)) := by
  induction t with
  | nil => simp [deleteHistory]
  | cons p t ih =>
    obtain ⟨k1, h1⟩ := p
    by_cases hk : k1 = k
    · simp only [deleteHistory, hk, if_true, List.map_cons]
      exact List.Sublist.cons _ ih
    · simp only [deleteHistory, hk, if_false, List.map_cons]
      exact List.Sublist.cons₂ _ ih

theorem distinctIds_moveTouch (clock : Nat → Int) (event : TouchEvent) (s : State)
    (touch : Touch) (hd : (s.touchHistory.map (fun p => p.2.id)).Nodup) :
    ((handleMoveTouch clock event s touch).touchHistory.map (fun p => p.2.id)).Nodup := by
  cases hl : lookupHistory touch.identifier s.touchHistory with
  | none => rw [handleMoveTouch_none clock event s touch hl]; exact hd
  | some h =>
    rw [handleMoveTouch_some clock event s touch h hl]
    show ((setHistory _ _ s.touchHistory).map _).Nodup
    rw [ids_setHistory_same s.touchHistory touch.identifier h
      { h with elems := h.elems ++ [_timestampTouch (clock s.dateNowCalls) touch event.origin
          (some h) event.touches.length false] } hl rfl]
    exact hd

theorem distinctIds_endTouch (clock : Nat → Int) (event : TouchEvent) (s : State)
    (touch : Touch) (hd : (s.touchHistory.map (fun p => p.2.id)).Nodup) :
    ((handleEndTouch clock event s touch).touchHistory.map (fun p => p.2.id)).Nodup := by
  cases hl : lookupHistory touch.identifier s.touchHistory with
  | none => rw [handleEndTouch_none clock event s touch hl]; exact hd
  | some h =>
    rw [handleEndTouch_some clock event s touch h hl]
    exact List.Nodup.sublist (ids_deleteHistory touch.identifier s.touchHistory) hd

theorem ids_setHistory_fresh (t : Table) (k : Int) (n : Nat) (l : List Snapshot)
    (hd : (t.map (fun p => p.2.id)).Nodup) (hlt : ∀ p ∈ t, p.2.id < n) :
    ((setHistory k ⟨n, l⟩ t).map (fun p => p.2.id)).Nodup := by
  induction t with
  | nil => simp [setHistory]
  | cons p t ih =>
    obtain ⟨k1, h1⟩ := p
    have hnd := List.nodup_cons.mp hd
    have hlt1 : ∀ p ∈ t, p.2.id < n := fun p hp => hlt p (List.mem_cons_of_mem _ hp)
    have hh1 : h1.id < n := hlt (k1, h1) (List.mem_cons_self _ _)
    by_cases hk : k1 = k
    · simp only [setHistory, hk, if_true, List.map_cons]
      refine List.nodup_cons.mpr ⟨?_, hnd.2⟩
      intro hmem
      obtain ⟨p, hp, hpid⟩ := List.mem_map.mp hmem
      have hlt2 := hlt1 p hp
      have hpid2 : p.2.id = n := hpid
      omega
    · simp only [setHistory, hk, if_false, List.map_cons]
      refine List.nodup_cons.mpr ⟨?_, ih hnd.2 hlt1⟩
      intro hmem
      obtain ⟨p, hp, hpid⟩ := List.mem_map.mp hmem
      rcases mem_setHistory k ⟨n, l⟩ t p hp with hp | hp
      · exact hnd.1 (List.mem_map.mpr ⟨p, hp, hpid⟩)
      · subst hp
        have hpid2 : n = h1.id := hpid
        omega

theorem distinct_track (s : State) (data : Snapshot) (hd : DistinctArrays s) :
    DistinctArrays (track s data) := by
  refine ⟨ids_setHistory_fresh s.touchHistory _ s.nextArrayId [data] hd.1 hd.2, ?_⟩
  intro p hp
  rcases mem_setHistory _ _ _ p hp with hp | hp
  · exact Nat.lt_succ_of_lt (hd.2 p hp)
  · subst hp; exact Nat.lt_succ_self _

theorem distinct_startTouch (clock : Nat → Int) (event : TouchEvent) (s : State)
    (touch : Touch) (hd : DistinctArrays s) :
    DistinctArrays (handleStartTouch clock event s touch) := by
  unfold handleStartTouch
  simp only []
  split
  · refine distinct_track _ _ ?_
    exact hd
  · exact hd

theorem distinct_moveTouch (clock : Nat → Int) (event : TouchEvent) (s : State)
    (touch : Touch) (hd : DistinctArrays s) :
    DistinctArrays (handleMoveTouch clock event s touch) := by
  refine ⟨distinctIds_moveTouch clock event s touch hd.1, ?_⟩
  cases hl : lookupHistory touch.identifier s.touchHistory with
  | none => rw [handleMoveTouch_none clock event s touch hl]; exact hd.2
  | some h =>
    rw [handleMoveTouch_some clock event s touch h hl]
    intro p hp
    rcases mem_setHistory _ _ _ p hp with hp | hp
    · exact hd.2 p hp
    · subst hp
      exact hd.2 (touch.identifier, h) (lookupHistory_mem _ h _ hl)

theorem distinct_endTouch (clock : Nat → Int) (event : TouchEvent) (s : State)
    (touch : Touch) (hd : DistinctArrays s) :
    DistinctArrays (handleEndTouch clock event s touch) := by
  refine ⟨distinctIds_endTouch clock event s touch hd.1, ?_⟩
  cases hl : lookupHistory touch.identifier s.touchHistory with
  | none => rw [handleEndTouch_none clock event s touch hl]; exact hd.2
  | some h =>
    rw [handleEndTouch_some clock event s touch h hl]
    intro p hp
    exact hd.2 p (mem_deleteHistory _ _ p hp)

theorem step_distinct (clock : Nat → Int) (s : State) (op : Op) (s1 : State)
    (hinv : TableInv s.touchHistory) (hd : DistinctArrays s) (_hop : True)
    (hstep : step clock s op = some s1) : DistinctArrays s1 := by
  cases op with
  | touchstart event =>
    cases hstep
    exact foldl_inv DistinctArrays _ (fun s t h => distinct_startTouch clock event s t h) _ s hd
  | touchmove event =>
    cases hstep
    exact foldl_inv DistinctArrays _ (fun s t h => distinct_moveTouch clock event s t h) _ s hd
  | touchend event =>
    cases hstep
    exact foldl_inv DistinctArrays _ (fun s t h => distinct_endTouch clock event s t h) _ s hd
  | touchcancel event =>
    cases hstep
    exact foldl_inv DistinctArrays _ (fun s t h => distinct_endTouch clock event s t h) _ s hd
  | unpipe =>
    have hnil := handleUnpipe_empties clock s s1 hinv hstep
    exact ⟨by rw [hnil]; exact List.nodup_nil, by rw [hnil]; simp⟩
  | track data =>
    cases hstep
    exact distinct_track s data hd

/-- In every state a fresh tracker reaches, by notifications and `track` calls alike, the
stored arrays are distinct objects. -/
theorem run_distinct (clock : Nat → Int) (selective : Bool) (ops : List Op) :
    ∃ s : State, run clock (TouchTracker selective) ops = some s ∧
      (s.touchHistory.map (fun p => p.2.id)).Nodup := by
  obtain ⟨s, hrun, _, hd⟩ := run_preserves clock DistinctArrays (fun _ => True)
    (step_distinct clock) ops (TouchTracker selective)
    ⟨List.nodup_nil, by simp [TouchTracker]⟩
    ⟨by simp [TouchTracker], by intro p hp; simp [TouchTracker] at hp⟩
    (fun _ _ => trivial)
  exact ⟨s, hrun, hd.1⟩

/-- C17, as the code has it: in a table of distinct arrays, the `history` field of a record
emitted by `_handleEnd` refers, when `emit` is called, to the array of the snapshots stored
before for the same identifier, oldest first, to which the record is not appended; the
`history` field of a record emitted by `_handleMove` refers to the stored array, which held
exactly the snapshots stored before when the record was built and holds them followed by the
record itself when `emit` is called. -/
theorem history_at_emission (clock : Nat → Int) (s : State) (event : TouchEvent)
    (hd : (s.touchHistory.map (fun p => p.2.id)).Nodup) :
    (∀ e ∈ emittedSince s (_handleEnd clock s event),
      ∃ (k : Nat) (touch : Touch) (h : HistoryArray) (s1 : State),
        event.changedTouches[k]? = some touch ∧
        s1 = (event.changedTouches.take k).foldl (handleEndTouch clock event) s ∧
        lookupHistory touch.identifier s1.touchHistory = some h ∧
        e = ⟨TrackEvent.trackend, _timestampTouch (clock s1.dateNowCalls) touch event.origin
          (some h) event.touches.length true⟩ ∧
        handleEndTouch clock event s1 touch =
          { emit (endEmitState s1) TrackEvent.trackend e.data with
            touchHistory := deleteHistory touch.identifier s1.touchHistory } ∧
        derefHistory (endEmitState s1).touchHistory e.data.history = some h.elems) ∧
    (∀ e ∈ emittedSince s (_handleMove clock s event),
      ∃ (k : Nat) (touch : Touch) (h : HistoryArray) (s1 : State),
        event.changedTouches[k]? = some touch ∧
        s1 = (event.changedTouches.take k).foldl (handleMoveTouch clock event) s ∧
        lookupHistory touch.identifier s1.touchHistory = some h ∧
        e = ⟨TrackEvent.trackmove, _timestampTouch (clock s1.dateNowCalls) touch event.origin
          (some h) event.touches.length false⟩ ∧
        handleMoveTouch clock event s1 touch =
          emit (moveEmitState clock event s1 touch h) TrackEvent.trackmove e.data ∧
        derefHistory s1.touchHistory e.data.history = some h.elems ∧
        derefHistory (moveEmitState clock event s1 touch h).touchHistory e.data.history =
          some (h.elems ++ [e.data])) := by
  constructor
  · intro e he
    obtain ⟨k, touch, h, hk, hl, heq⟩ := handleEnd_steps clock s event e he
    have hd1 := foldl_inv (fun s => (s.touchHistory.map (fun p => p.2.id)).Nodup) _
      (fun s t h => distinctIds_endTouch clock event s t h) (event.changedTouches.take k) s hd
    refine ⟨k, touch, h, _, hk, rfl, hl, heq, ?_, ?_⟩
    · rw [heq]; exact handleEndTouch_emit clock event _ touch h hl
    · rw [heq]
      exact derefHistory_of_lookup _ hd1 touch.identifier h hl
  · intro e he
    obtain ⟨k, touch, h, hk, hl, heq⟩ := handleMove_steps clock s event e he
    have hd1 := foldl_inv (fun s => (s.touchHistory.map (fun p => p.2.id)).Nodup) _
      (fun s t h => distinctIds_moveTouch clock event s t h) (event.changedTouches.take k) s hd
    refine ⟨k, touch, h, _, hk, rfl, hl, heq, ?_, ?_, ?_⟩
    · rw [heq]; exact handleMoveTouch_emit clock event _ touch h hl
    · rw [heq]
      exact derefHistory_of_lookup _ hd1 touch.identifier h hl
    · rw [heq]
      have hd2 : ((moveEmitState clock event ((event.changedTouches.take k).foldl
          (handleMoveTouch clock event) s) touch h).touchHistory.map
            (fun p => p.2.id)).Nodup := by
        show ((setHistory _ _ _).map _).Nodup
        rw [ids_setHistory_same _ touch.identifier h
          { h with elems := h.elems ++ [_timestampTouch
              (clock ((event.changedTouches.take k).foldl (handleMoveTouch clock event)
                s).dateNowCalls) touch event.origin (some h) event.touches.length false] }
          hl rfl]
        exact hd1
      exact derefHistory_of_lookup _ hd2 touch.identifier
        { h with elems := h.elems ++ [_timestampTouch _ touch event.origin (some h)
            event.touches.length false] }
        (by simp [moveEmitState, lookupHistory_setHistory])

/-- C17, instance of the amended statement: when the `trackmove` of `nudgeEvent` is emitted
from `pressedState`, its `history` field reads as the start snapshot followed by the emitted
snapshot. -/
theorem history_at_emission_witness :
    ∃ (k : Nat) (touch : Touch) (h : HistoryArray) (s1 : State),
      nudgeEvent.changedTouches[k]? = some touch ∧
      s1 = (nudgeEvent.changedTouches.take k).foldl (handleMoveTouch heldClock nudgeEvent)
        pressedState ∧
      lookupHistory touch.identifier s1.touchHistory = some h ∧
      nudgeRecord = ⟨TrackEvent.trackmove, _timestampTouch (heldClock s1.dateNowCalls) touch
        nudgeEvent.origin (some h) nudgeEvent.touches.length false⟩ ∧
      handleMoveTouch heldClock nudgeEvent s1 touch =
        emit (moveEmitState heldClock nudgeEvent s1 touch h) TrackEvent.trackmove
          nudgeRecord.data ∧
      derefHistory s1.touchHistory nudgeRecord.data.history = some h.elems ∧
      derefHistory (moveEmitState heldClock nudgeEvent s1 touch h).touchHistory
        nudgeRecord.data.history = some (h.elems ++ [nudgeRecord.data]) :=
  (history_at_emission heldClock pressedState nudgeEvent (by decide)).2 nudgeRecord
    (by decide)

/-- C17 fails as stated for `_handleMove`: contact 1 starts at t=0 and moves at t=1100; the
handler pushes the new snapshot into the stored array (source line 80) before it calls `emit`
(line 81), so when the `trackmove` is emitted its `history` field reads as the start snapshot
followed by the emitted snapshot itself. -/
theorem history_contains_emitted_move :
    emittedSince pressedState (_handleMove heldClock pressedState nudgeEvent) =
      [nudgeRecord] ∧
    _handleMove heldClock pressedState nudgeEvent =
      emit (moveEmitState heldClock nudgeEvent pressedState ⟨1, 1, 1⟩ ⟨0, [originStart]⟩)
        TrackEvent.trackmove nudgeRecord.data ∧
    derefHistory
        (moveEmitState heldClock nudgeEvent pressedState ⟨1, 1, 1⟩ ⟨0, [originStart]⟩).touchHistory
        nudgeRecord.data.history = some [originStart, nudgeRecord.data] ∧
    nudgeRecord.data ∈ [originStart, nudgeRecord.data] := by
  decide

end FamousInputs
